import Mathlib

/-!
Verification of the geoapi.pt postal-code / administrative-region core.

The JavaScript sources shallowly embedded here are:
  * `js/routines/generatePostalCodes/generate.js` (batch pipeline: line
    counting, per-CP4 directory creation, per-code assembly error flow,
    command-line option handling);
  * `js/server-modules/hbsHelpers.js` (`obj2dataAttribute`);
  * `views/js/postal-code.js` (browser-side decode of the data attribute).

Components of the specification whose serving-side source is not part of the
assessed tree (GeoResolver, BoundaryIndex, `computeCenter`, `computeBoundary`,
postal-code normalization) are modelled from the spec; each such definition
carries a doc comment starting with "Modelled from the spec".

Numeric conventions: JavaScript numbers (IEEE doubles) are modelled as
rationals `ℚ`; byte buffers as `List Nat`; JavaScript strings as `String`
or as lists of Unicode code points (`List Nat`) where percent-encoding is
involved.
-/

namespace GeoAPI

/-- A planar point: rational latitude/longitude (doubles abstracted as `ℚ`). -/
structure Pt where
  lat : ℚ
  lon : ℚ
deriving DecidableEq, Repr

/-- Minimum of a list of rationals (`0` for the empty list, never used there). -/
def minQ : List ℚ → ℚ
  | [] => 0
  | x :: xs => xs.foldl min x

/-- Maximum of a list of rationals (`0` for the empty list, never used there). -/
def maxQ : List ℚ → ℚ
  | [] => 0
  | x :: xs => xs.foldl max x

theorem foldl_min_le_init (xs : List ℚ) : ∀ x : ℚ, xs.foldl min x ≤ x := by
  induction xs with
  | nil => intro x; simp
  | cons y t ih =>
    intro x
    calc (y :: t).foldl min x = t.foldl min (min x y) := by simp [List.foldl_cons]
    _ ≤ min x y := ih (min x y)
    _ ≤ x := min_le_left _ _

theorem foldl_min_le_mem (xs : List ℚ) :
    ∀ x : ℚ, ∀ y ∈ xs, xs.foldl min x ≤ y := by
  induction xs with
  | nil => intro x y hy; simp at hy
  | cons z t ih =>
    intro x y hy
    rcases List.mem_cons.mp hy with h | h
    · subst h
      calc (y :: t).foldl min x = t.foldl min (min x y) := by simp [List.foldl_cons]
      _ ≤ min x y := foldl_min_le_init t (min x y)
      _ ≤ y := min_le_right _ _
    · simpa [List.foldl_cons] using ih (min x z) y h

theorem minQ_le_mem (l : List ℚ) : ∀ y ∈ l, minQ l ≤ y := by
  cases l with
  | nil => intro y hy; simp at hy
  | cons x xs =>
    intro y hy
    rcases List.mem_cons.mp hy with h | h
    · subst h
      simpa [minQ] using foldl_min_le_init xs y
    · simpa [minQ] using foldl_min_le_mem xs x y h

theorem le_foldl_max_init (xs : List ℚ) : ∀ x : ℚ, x ≤ xs.foldl max x := by
  induction xs with
  | nil => intro x; simp
  | cons y t ih =>
    intro x
    calc x ≤ max x y := le_max_left _ _
    _ ≤ t.foldl max (max x y) := ih (max x y)
    _ = (y :: t).foldl max x := by simp [List.foldl_cons]

theorem le_foldl_max_mem (xs : List ℚ) :
    ∀ x : ℚ, ∀ y ∈ xs, y ≤ xs.foldl max x := by
  induction xs with
  | nil => intro x y hy; simp at hy
  | cons z t ih =>
    intro x y hy
    rcases List.mem_cons.mp hy with h | h
    · subst h
      calc y ≤ max x y := le_max_right _ _
      _ ≤ t.foldl max (max x y) := le_foldl_max_init t (max x y)
      _ = (y :: t).foldl max x := by simp [List.foldl_cons]
    · simpa [List.foldl_cons] using ih (max x z) y h

theorem le_maxQ_mem (l : List ℚ) : ∀ y ∈ l, y ≤ maxQ l := by
  cases l with
  | nil => intro y hy; simp at hy
  | cons x xs =>
    intro y hy
    rcases List.mem_cons.mp hy with h | h
    · subst h
      simpa [maxQ] using le_foldl_max_init xs y
    · simpa [maxQ] using le_foldl_max_mem xs x y h

theorem sum_le_length_mul (l : List ℚ) (M : ℚ) (h : ∀ y ∈ l, y ≤ M) :
    l.sum ≤ (l.length : ℚ) * M := by
  induction l with
  | nil => simp
  | cons x t ih =>
    have hx : x ≤ M := h x (by simp)
    have ht : t.sum ≤ (t.length : ℚ) * M :=
      ih (fun y hy => h y (List.mem_cons_of_mem _ hy))
    simp only [List.sum_cons, List.length_cons]
    push_cast
    nlinarith

theorem length_mul_le_sum (l : List ℚ) (m : ℚ) (h : ∀ y ∈ l, m ≤ y) :
    (l.length : ℚ) * m ≤ l.sum := by
  induction l with
  | nil => simp
  | cons x t ih =>
    have hx : m ≤ x := h x (by simp)
    have ht : (t.length : ℚ) * m ≤ t.sum :=
      ih (fun y hy => h y (List.mem_cons_of_mem _ hy))
    simp only [List.sum_cons, List.length_cons]
    push_cast
    nlinarith

/-- Modelled from the spec: `computeCenter(points) → {lat, lon}`, the
arithmetic mean of the coordinates of the point set (spec §4.1); the
serving-side aggregator source is not part of the assessed tree. -/
def computeCenter (pts : List Pt) : Pt :=
  { lat := (pts.map Pt.lat).sum / (pts.length : ℚ)
    lon := (pts.map Pt.lon).sum / (pts.length : ℚ) }

theorem mean_between (l : List ℚ) (h : l ≠ []) :
    minQ l ≤ l.sum / (l.length : ℚ) ∧ l.sum / (l.length : ℚ) ≤ maxQ l := by
  have hlen : 0 < (l.length : ℚ) := by
    have : 0 < l.length := List.length_pos.mpr h
    exact_mod_cast this
  constructor
  · rw [le_div_iff₀ hlen]
    have := length_mul_le_sum l (minQ l) (minQ_le_mem l)
    linarith
  · rw [div_le_iff₀ hlen]
    have := sum_le_length_mul l (maxQ l) (le_maxQ_mem l)
    linarith

/-- Claim C6: for every non-empty point set, `computeCenter` returns the
arithmetic mean of the points' coordinates, and the returned point lies
within the point set's bounding box (spec §4.1, §8). -/
theorem computeCenter_mean_in_bbox (pts : List Pt) (h : pts ≠ []) :
    computeCenter pts =
      { lat := (pts.map Pt.lat).sum / (pts.length : ℚ)
        lon := (pts.map Pt.lon).sum / (pts.length : ℚ) }
    ∧ minQ (pts.map Pt.lat) ≤ (computeCenter pts).lat
    ∧ (computeCenter pts).lat ≤ maxQ (pts.map Pt.lat)
    ∧ minQ (pts.map Pt.lon) ≤ (computeCenter pts).lon
    ∧ (computeCenter pts).lon ≤ maxQ (pts.map Pt.lon) := by
  have hlat : pts.map Pt.lat ≠ [] := by
    intro hx; exact h (List.map_eq_nil_iff.mp hx)
  have hlon : pts.map Pt.lon ≠ [] := by
    intro hx; exact h (List.map_eq_nil_iff.mp hx)
  have h1 := mean_between (pts.map Pt.lat) hlat
  have h2 := mean_between (pts.map Pt.lon) hlon
  rw [List.length_map] at h1
  rw [List.length_map] at h2
  exact ⟨rfl, h1.1, h1.2, h2.1, h2.2⟩

/-- Witness for C6: a concrete two-point set, mean inside the bounding box. -/
theorem computeCenter_mean_in_bbox_witness :
    ([⟨1, 2⟩, ⟨3, 10⟩] : List Pt) ≠ []
    ∧ minQ ([⟨1, 2⟩, ⟨3, 10⟩].map Pt.lat) ≤ (computeCenter [⟨1, 2⟩, ⟨3, 10⟩]).lat :=
  ⟨by decide, (computeCenter_mean_in_bbox [⟨1, 2⟩, ⟨3, 10⟩] (by decide)).2.1⟩

/-! ## Claim C7: idempotent directory creation (`generate.js` lines 169-184)

The batch pipeline creates one directory per CP4 prefix:
```
if (!fs.existsSync(path.join(resDirectory, 'data'))) {
  fs.mkdirSync(path.join(resDirectory, 'data'))
}
for (const CP4 of CP4postalCodes) {
  if (!fs.existsSync(path.join(resDirectory, 'data', CP4))) {
    fs.mkdirSync(path.join(resDirectory, 'data', CP4), { recursive: true })
  } else { /- tick: already exists -/ }
}
```
The file system is modelled as the list of existing directory paths (a path
being its list of segments). `fs.mkdirSync` on an existing path raises
`EEXIST`; the source guards every call with `fs.existsSync`. -/

/-- Raw `fs.mkdirSync`: fails with `EEXIST` when the directory exists. -/
def jsMkdirSync (fs : List (List String)) (d : List String) :
    Except String (List (List String)) :=
  if d ∈ fs then Except.error "EEXIST" else Except.ok (d :: fs)

/-- The guarded creation step of `generate.js` (existsSync check, then mkdirSync). -/
def mkdirIfMissing (fs : List (List String)) (d : List String) :
    Except String (List (List String)) :=
  if d ∈ fs then Except.ok fs else jsMkdirSync fs d

/-- Pure effect of the guarded creation step on the directory tree. -/
def mkdirApply (fs : List (List String)) (d : List String) : List (List String) :=
  if d ∈ fs then fs else d :: fs

/-- Root of the postal-code resource tree (`res/postal-codes` in `generate.js`). -/
def resDirectory : List String := ["res", "postal-codes"]

/-- Path of the `data` directory under the resource root. -/
def dataDirPath : List String := resDirectory ++ ["data"]

/-- Path of the per-CP4 shard directory. -/
def cp4DirPath (cp4 : String) : List String := resDirectory ++ ["data", cp4]

/-- The directory-creation pass of `assembleCP3Data`: the `data` root, then
one directory per CP4 code. -/
def createCP4Dirs (fs : List (List String)) (cp4s : List String) :
    List (List String) :=
  cp4s.foldl (fun s cp4 => mkdirApply s (cp4DirPath cp4)) (mkdirApply fs dataDirPath)

theorem mkdirIfMissing_never_errors (fs : List (List String)) (d : List String) :
    mkdirIfMissing fs d = Except.ok (mkdirApply fs d) := by
  unfold mkdirIfMissing mkdirApply jsMkdirSync
  split <;> simp_all

theorem mem_mkdirApply_of_mem (fs : List (List String)) (d e : List String)
    (h : e ∈ fs) : e ∈ mkdirApply fs d := by
  unfold mkdirApply
  split
  · exact h
  · exact List.mem_cons_of_mem _ h

theorem mem_mkdirApply_self (fs : List (List String)) (d : List String) :
    d ∈ mkdirApply fs d := by
  unfold mkdirApply
  split
  · assumption
  · exact List.mem_cons_self _ _

theorem mkdirApply_of_mem (fs : List (List String)) (d : List String)
    (h : d ∈ fs) : mkdirApply fs d = fs := by
  unfold mkdirApply
  simp [h]

theorem mem_foldl_mkdir_of_mem (l : List String) :
    ∀ (fs : List (List String)) (e : List String), e ∈ fs →
      e ∈ l.foldl (fun s cp4 => mkdirApply s (cp4DirPath cp4)) fs := by
  induction l with
  | nil => intro fs e h; simpa using h
  | cons x t ih =>
    intro fs e h
    simp only [List.foldl_cons]
    exact ih _ e (mem_mkdirApply_of_mem _ _ _ h)

theorem mem_foldl_mkdir_self (l : List String) :
    ∀ (fs : List (List String)) (cp4 : String), cp4 ∈ l →
      cp4DirPath cp4 ∈ l.foldl (fun s c => mkdirApply s (cp4DirPath c)) fs := by
  induction l with
  | nil => intro fs cp4 h; simp at h
  | cons x t ih =>
    intro fs cp4 h
    simp only [List.foldl_cons]
    rcases List.mem_cons.mp h with h | h
    · subst h
      exact mem_foldl_mkdir_of_mem t _ _ (mem_mkdirApply_self _ _)
    · exact ih _ cp4 h

theorem mem_createCP4Dirs (fs : List (List String)) (l : List String) :
    dataDirPath ∈ createCP4Dirs fs l
    ∧ ∀ cp4 ∈ l, cp4DirPath cp4 ∈ createCP4Dirs fs l := by
  constructor
  · exact mem_foldl_mkdir_of_mem l _ _ (mem_mkdirApply_self fs dataDirPath)
  · intro cp4 hcp4
    exact mem_foldl_mkdir_self l _ cp4 hcp4

theorem foldl_mkdir_noop (l : List String) :
    ∀ fs : List (List String), (∀ cp4 ∈ l, cp4DirPath cp4 ∈ fs) →
      l.foldl (fun s cp4 => mkdirApply s (cp4DirPath cp4)) fs = fs := by
  induction l with
  | nil => intro fs _; rfl
  | cons x t ih =>
    intro fs h
    simp only [List.foldl_cons]
    rw [mkdirApply_of_mem fs _ (h x (by simp))]
    exact ih fs (fun cp4 hc => h cp4 (List.mem_cons_of_mem _ hc))

/-- Claim C7: the artifact-store write path creates the per-CP4 prefix
directory when absent, treats an already-existing directory as success
rather than an error, and running the creation pass a second time leaves
the directory tree unchanged. -/
theorem createCP4Dirs_idempotent (fs : List (List String)) (l : List String) :
    (∀ d, mkdirIfMissing fs d = Except.ok (mkdirApply fs d))
    ∧ (∀ cp4 ∈ l, cp4DirPath cp4 ∈ createCP4Dirs fs l)
    ∧ createCP4Dirs (createCP4Dirs fs l) l = createCP4Dirs fs l := by
  refine ⟨fun d => mkdirIfMissing_never_errors fs d, (mem_createCP4Dirs fs l).2, ?_⟩
  conv_lhs => rw [createCP4Dirs]
  rw [mkdirApply_of_mem _ _ (mem_createCP4Dirs fs l).1]
  exact foldl_mkdir_noop l _ (mem_createCP4Dirs fs l).2

/-- Witness for C7: one concrete CP4 code on an empty file system. -/
theorem createCP4Dirs_idempotent_witness :
    cp4DirPath "1950" ∈ createCP4Dirs [] ["1950"]
    ∧ createCP4Dirs (createCP4Dirs [] ["1950"]) ["1950"] = createCP4Dirs [] ["1950"] :=
  ⟨(createCP4Dirs_idempotent [] ["1950"]).2.1 "1950" (by decide),
   (createCP4Dirs_idempotent [] ["1950"]).2.2⟩

/-! ## Claim C5: postal-code normalization for `/cp` lookups -/

/-- Modelled from the spec: the `/cp` route accepts a code as 4 digits,
7 digits, or 4+hyphen+3 digits; the hyphen is stripped and the length of the
digit string is validated to 4 or 7 before lookup (spec §6). The route
source is not part of the assessed tree. -/
def normalizeCode (s : String) : Option String :=
  let t : List Char := s.data.filter (fun c => c ≠ '-')
  if t.all Char.isDigit && (t.length == 4 || t.length == 7) then
    some (String.mk t)
  else
    none

/-- Modelled from the spec: `ArtifactStore.get(code)` — normalize, then exact
lookup of the normalized code in the store (spec §4.2, §6). -/
def cpGet {α : Type} (store : List (String × α)) (code : String) : Option α :=
  (normalizeCode code).bind (fun k => List.lookup k store)

/-- Claim C5: the query forms `1950-449` and `1950449` are normalized to the
same key, so both resolve to exactly the artifact stored under `1950449`,
for every store. -/
theorem cpGet_normalizes {α : Type} (store : List (String × α)) :
    cpGet store "1950-449" = List.lookup "1950449" store
    ∧ cpGet store "1950449" = List.lookup "1950449" store
    ∧ cpGet store "1950-449" = cpGet store "1950449" := by
  have h1 : normalizeCode "1950-449" = some "1950449" := by decide
  have h2 : normalizeCode "1950449" = some "1950449" := by decide
  refine ⟨?_, ?_, ?_⟩ <;> simp [cpGet, h1, h2]

/-! ## Claim C10: `countFileLines` (`generate.js` lines 91-108)

```
let lineCount = 0
fs.createReadStream(unzippedFilePath).on('data', (buffer) => {
  let idx = -1
  lineCount--               // the loop runs once for idx = -1
  do {
    idx = buffer.indexOf(10, idx + 1)
    lineCount++
  } while (idx !== -1)
})
```
The chunk is a byte buffer (`List Nat`); `buffer.indexOf(10, start)` returns
the first index `≥ start` holding byte `10`, or `-1` (here: `Option`). -/

/-- Index of the first newline byte (10) in a buffer suffix. -/
def idxOf10 : List Nat → Option Nat
  | [] => none
  | b :: t => if b = 10 then some 0 else (idxOf10 t).map (· + 1)

/-- `buffer.indexOf(10, start)`; `none` models JavaScript `-1`. -/
def indexOfFrom (buf : List Nat) (start : Nat) : Option Nat :=
  (idxOf10 (buf.drop start)).map (· + start)

/-- Number of iterations of the do/while loop when the next search starts at
`start`; each iteration performs one `lineCount++`. The fuel argument only
drives the recursion and is irrelevant once it exceeds the buffer length. -/
def scanNewlines (buf : List Nat) : Nat → Nat → Nat
  | 0, _ => 0
  | fuel + 1, start =>
    match indexOfFrom buf start with
    | none => 1
    | some i => 1 + scanNewlines buf fuel (i + 1)

/-- Net effect of one `data` chunk on `lineCount`: one decrement followed by
one increment per loop iteration. -/
def chunkDelta (buf : List Nat) : Int :=
  (scanNewlines buf (buf.length + 1) 0 : Int) - 1

/-- Total computed by `countFileLines` over the chunk sequence delivered by
the read stream. -/
def countFileLines (chunks : List (List Nat)) : Int :=
  chunks.foldl (fun acc b => acc + chunkDelta b) 0

theorem idxOf10_none_count (l : List Nat) (h : idxOf10 l = none) :
    l.count 10 = 0 := by
  induction l with
  | nil => rfl
  | cons b t ih =>
    unfold idxOf10 at h
    by_cases hb : b = 10
    · simp [hb] at h
    · rw [if_neg hb] at h
      cases ht : idxOf10 t with
      | none =>
        rw [List.count_cons]
        simp [ih ht, hb, Ne.symm hb]
      | some j => rw [ht] at h; simp at h

theorem idxOf10_some_count (l : List Nat) :
    ∀ j, idxOf10 l = some j →
      j < l.length ∧ l.count 10 = 1 + (l.drop (j + 1)).count 10 := by
  induction l with
  | nil => intro j h; simp [idxOf10] at h
  | cons b t ih =>
    intro j h
    unfold idxOf10 at h
    by_cases hb : b = 10
    · rw [if_pos hb] at h
      rw [Option.some.injEq] at h
      subst h
      constructor
      · simp
      · rw [List.count_cons]
        simp [hb]
        omega
    · rw [if_neg hb] at h
      cases ht : idxOf10 t with
      | none => rw [ht] at h; simp at h
      | some j0 =>
        rw [ht] at h
        simp only [Option.map_some', Option.some.injEq] at h
        obtain ⟨hlt, hcount⟩ := ih j0 ht
        subst h
        constructor
        · simpa using Nat.succ_lt_succ hlt
        · rw [List.count_cons]
          simp only [List.drop_succ_cons]
          simp [hcount, hb, Ne.symm hb]

theorem scanNewlines_eq_count (buf : List Nat) :
    ∀ (fuel start : Nat), buf.length - start < fuel →
      scanNewlines buf fuel start = (buf.drop start).count 10 + 1 := by
  intro fuel
  induction fuel with
  | zero => intro start h; omega
  | succ n ih =>
    intro start h
    unfold scanNewlines indexOfFrom
    cases hj : idxOf10 (buf.drop start) with
    | none =>
      simp only [hj, Option.map_none']
      rw [idxOf10_none_count _ hj]
    | some j =>
      simp only [hj, Option.map_some']
      obtain ⟨hlt, hcount⟩ := idxOf10_some_count _ j hj
      rw [List.length_drop] at hlt
      have hdrop : (buf.drop start).drop (j + 1) = buf.drop (j + start + 1) := by
        rw [List.drop_drop]
        ring_nf
      have hrec : scanNewlines buf n (j + start + 1) = (buf.drop (j + start + 1)).count 10 + 1 := by
        apply ih
        omega
      rw [hrec, hcount, hdrop]
      omega

theorem chunkDelta_eq_count (buf : List Nat) :
    chunkDelta buf = (buf.count 10 : Int) := by
  unfold chunkDelta
  rw [scanNewlines_eq_count buf (buf.length + 1) 0 (by omega)]
  simp

theorem countFileLines_foldl (chunks : List (List Nat)) :
    ∀ acc : Int,
      chunks.foldl (fun a b => a + chunkDelta b) acc
        = acc + (chunks.flatten.count 10 : Int) := by
  induction chunks with
  | nil => intro acc; simp
  | cons c t ih =>
    intro acc
    simp only [List.foldl_cons, List.flatten_cons]
    rw [ih (acc + chunkDelta c), chunkDelta_eq_count, List.count_append]
    push_cast
    ring

/-- Claim C10: for every file content and every way the read stream splits it
into chunks, `countFileLines` totals exactly the number of newline bytes
(0x0A) in the whole content. -/
theorem countFileLines_eq_newline_count (content : List Nat)
    (chunks : List (List Nat)) (h : chunks.flatten = content) :
    countFileLines chunks = (content.count 10 : Int) := by
  unfold countFileLines
  rw [countFileLines_foldl chunks 0, h]
  simp

/-- Witness for C10: a 2-newline content split at a chunk boundary that cuts
between a newline and the next character. -/
theorem countFileLines_eq_newline_count_witness :
    ([[97, 10], [98], [10, 99]] : List (List Nat)).flatten = [97, 10, 98, 10, 99]
    ∧ countFileLines [[97, 10], [98], [10, 99]] = (([97, 10, 98, 10, 99] : List Nat).count 10 : Int) :=
  ⟨by decide,
   countFileLines_eq_newline_count [97, 10, 98, 10, 99] [[97, 10], [98], [10, 99]] (by decide)⟩

/-! ## Claims C3: per-code failure reporting of the batch run

`assembleCP3Data` and `assembleCP4Data` (`generate.js` lines 197-209 and
234-251) iterate over the code list with `async.each`; the final callback
receives the single error of the first iteratee that fails, and the stage
forwards exactly that one error:
```
async.each(postalCodes, function (postalCode, callback) {
  generatePostalCodesFunctions.createCP4CP3jsonFile(..., callback)
}, function (err) {
  if (err) { callback(Error(err)) } else { ... callback() }
})
```
Each per-code task is abstracted as a function from the code to `ok` or an
error string; `async.each` starts every task, and the order of error
delivery is abstracted by list order. -/

/-- Results of all per-code tasks started by `async.each`. -/
def codeResults (f : String → Except String Unit) (codes : List String) :
    List (Except String Unit) :=
  codes.map f

/-- Test for a failed task result. -/
def isErr : Except String Unit → Bool
  | Except.error _ => true
  | Except.ok _ => false

/-- Error delivered to the final callback of `async.each`: the first error
among the per-code results, if any. -/
def firstError : List (Except String Unit) → Option String
  | [] => none
  | Except.error e :: _ => some e
  | Except.ok _ :: t => firstError t

/-- Overall result reported by the assembly stage: `callback(Error(err))`
with the first per-code error, else success. -/
def assembleRun (f : String → Except String Unit) (codes : List String) :
    Except String Unit :=
  match firstError (codeResults f codes) with
  | some e => Except.error e
  | none => Except.ok ()

/-- The codes whose task failed during the run. -/
def failingCodes (f : String → Except String Unit) (codes : List String) :
    List String :=
  codes.filter (fun c => isErr (f c))

/-- A run in which every code fails. -/
def everyCodeFails : String → Except String Unit :=
  fun c => Except.error (c ++ " failed")

/-- A run in which only the code `3000` fails. -/
def onlyFirstCodeFails : String → Except String Unit :=
  fun c => if c = "3000" then Except.error ("3000" ++ " failed") else Except.ok ()

/-- Counterexample for C3: two runs over the codes `["3000", "4000"]`, one
with both codes failing and one with only `3000` failing, report the very
same single error, so the report does not identify every problematic code:
the second failing code is never reported. -/
theorem assembleRun_not_collected :
    assembleRun everyCodeFails ["3000", "4000"]
      = assembleRun onlyFirstCodeFails ["3000", "4000"]
    ∧ failingCodes everyCodeFails ["3000", "4000"] = ["3000", "4000"]
    ∧ failingCodes onlyFirstCodeFails ["3000", "4000"] = ["3000"]
    ∧ assembleRun everyCodeFails ["3000", "4000"] = Except.error "3000 failed" := by
  exact ⟨rfl, rfl, rfl, rfl⟩

/-- Claim C3 (amended): per-code failures are not collected; the stage
reports exactly the first failing code's task error (and succeeds if and
only if no code fails), so later failing codes go unreported although the
run does not silently succeed. -/
theorem assembleRun_reports_first_failure (f : String → Except String Unit)
    (codes : List String) :
    (assembleRun f codes = Except.ok () ↔ failingCodes f codes = [])
    ∧ (∀ c, (failingCodes f codes).head? = some c → assembleRun f codes = f c) := by
  induction codes with
  | nil =>
    refine ⟨by simp [assembleRun, codeResults, firstError, failingCodes], ?_⟩
    intro c h
    simp [failingCodes] at h
  | cons x t ih =>
    cases hfx : f x with
    | error e =>
      have hrun : assembleRun f (x :: t) = Except.error e := by
        simp [assembleRun, codeResults, hfx, firstError]
      have hfail : failingCodes f (x :: t) = x :: failingCodes f t := by
        simp [failingCodes, List.filter_cons, hfx, isErr]
      refine ⟨?_, ?_⟩
      · rw [hrun, hfail]
        constructor
        · intro h; exact absurd h (by simp)
        · intro h; exact absurd h (by simp)
      · intro c hc
        rw [hfail] at hc
        simp only [List.head?_cons, Option.some.injEq] at hc
        subst hc
        rw [hrun, hfx]
    | ok u =>
      have hrun : assembleRun f (x :: t) = assembleRun f t := by
        simp [assembleRun, codeResults, hfx, firstError]
      have hfail : failingCodes f (x :: t) = failingCodes f t := by
        simp [failingCodes, List.filter_cons, hfx, isErr]
      rw [hrun, hfail]
      exact ih

/-- Witness for C3's amended claim: with only `3000` failing, the reported
error is that task's error. -/
theorem assembleRun_reports_first_failure_witness :
    assembleRun onlyFirstCodeFails ["3000", "4000"] = onlyFirstCodeFails "3000" :=
  (assembleRun_reports_first_failure onlyFirstCodeFails ["3000", "4000"]).2
    "3000" (by decide)

/-! ## Claim C9: `assembleCP4Data` option check (`generate.js` lines 46-50, 213-223)

```
const argvOptions = commandLineArgs([
  { name: 'download-zip', type: Boolean },
  { name: 'onlyCP4', type: String, multiple: true },
  { name: 'onlyCP3', type: Boolean }
])
...
function assembleCP4Data (callback) {
  if (argvOptions.onlyCP3) { callback(); return }
  ...
  if (argvOptions.onlyCP4.length) {
    CP4postalCodes = argvOptions.onlyCP4
  }
  ...
}
```
`command-line-args` omits from its result every option not present in argv,
so each option is modelled as `Option`-valued; accessing `.length` on an
absent (`undefined`) value throws a `TypeError`. -/

/-- Command-line options of `generate.js`; an absent option is `none`. -/
structure ArgvOptions where
  onlyCP4 : Option (List String)
  onlyCP3 : Option Bool
deriving DecidableEq, Repr

/-- JavaScript property access `v.length` where `v` may be `undefined`. -/
def jsLength : Option (List String) → Except String Nat
  | none => Except.error "TypeError: Cannot read properties of undefined"
  | some l => Except.ok l.length

/-- Truthiness of a possibly-absent boolean option. -/
def jsTruthy : Option Bool → Bool
  | none => false
  | some b => b

/-- Work-list selection of `assembleCP4Data`: skip the stage when `onlyCP3`
is truthy (`none` result); otherwise evaluate `argvOptions.onlyCP4.length`
and, when nonzero, replace the CP4 work list; propagate a thrown
`TypeError` as an error. -/
def assembleCP4Codes (opts : ArgvOptions) (cp4s : List String) :
    Except String (Option (List String)) :=
  if jsTruthy opts.onlyCP3 then Except.ok none
  else
    match jsLength opts.onlyCP4 with
    | Except.error e => Except.error e
    | Except.ok n =>
      if n ≠ 0 then Except.ok (some (opts.onlyCP4.getD []))
      else Except.ok (some cp4s)

/-- Claim C9 evaluated on the code: when `--onlyCP4` is not supplied (and the
stage is not skipped via `--onlyCP3`), the option check of `assembleCP4Data`
throws a `TypeError` instead of proceeding with all CP4 codes. This refutes
the claim and exhibits the code bug. -/
theorem assembleCP4Codes_throws_without_option (cp4s : List String) :
    assembleCP4Codes { onlyCP4 := none, onlyCP3 := none } cp4s
      = Except.error "TypeError: Cannot read properties of undefined"
    ∧ assembleCP4Codes { onlyCP4 := none, onlyCP3 := none } cp4s
      ≠ Except.ok (some cp4s) := by
  refine ⟨rfl, ?_⟩
  intro h
  simp [assembleCP4Codes, jsTruthy, jsLength] at h

/-! ## Claims C1 and C4: BoundaryIndex and GeoResolver

Modelled from the spec (the serving-side resolver source is not part of the
assessed tree): a boundary ring is an ordered closed vertex list; the exact
containment test is the crossing-number/ray-casting algorithm (a ray cast in
the +lon direction); a region has outer rings and hole rings and contains a
point when some outer ring contains it and no hole ring does; the
BoundaryIndex partitions the plane into a uniform grid and stores each
region in every cell its bounding box intersects; `resolve` takes the grid
candidates and returns the first candidate whose exact test succeeds. -/

/-- A polygon ring: ordered vertex sequence; a well-formed ring is closed
(first vertex equals last vertex). -/
abbrev Ring := List Pt

/-- One step of the ray-casting loop: does the edge `a → b` cross the
horizontal ray from `p` in the +lon direction? -/
def edgeCrosses (p a b : Pt) : Bool :=
  (decide (a.lat > p.lat) != decide (b.lat > p.lat))
    && decide (p.lon < (b.lon - a.lon) * (p.lat - a.lat) / (b.lat - a.lat) + a.lon)

/-- The consecutive-vertex edges of a ring. -/
def ringEdges (r : Ring) : List (Pt × Pt) := r.zip r.tail

/-- Number of ray crossings of the ring boundary. -/
def crossingCount (p : Pt) (r : Ring) : Nat :=
  (ringEdges r).countP (fun e => edgeCrosses p e.1 e.2)

/-- Crossing-number containment: an odd number of crossings means inside. -/
def inRing (p : Pt) (r : Ring) : Bool := crossingCount p r % 2 = 1

/-- An administrative region: outer boundary rings and interior hole rings. -/
structure AdministrativeRegion where
  name : String
  outers : List Ring
  holes : List Ring
deriving DecidableEq, Repr

/-- Exact point-in-region test: inside some outer ring and inside no hole
ring of the same region. -/
def inRegion (p : Pt) (r : AdministrativeRegion) : Bool :=
  r.outers.any (fun o => inRing p o) && r.holes.all (fun h => !inRing p h)

/-- All boundary vertices of a region. -/
def regionVertices (r : AdministrativeRegion) : List Pt :=
  (r.outers ++ r.holes).flatten

/-- Number of boolean flips between consecutive entries of a list. -/
def flips : List Bool → Nat
  | [] => 0
  | [_] => 0
  | a :: b :: t => (if a != b then 1 else 0) + flips (b :: t)

theorem flips_parity : ∀ (l : List Bool) (a b : Bool),
    (a :: l).getLast? = some b → flips (a :: l) % 2 = if a = b then 0 else 1 := by
  intro l
  induction l with
  | nil =>
    intro a b h
    simp only [List.getLast?_singleton, Option.some.injEq] at h
    subst h
    simp [flips]
  | cons c t ih =>
    intro a b h
    rw [List.getLast?_cons_cons] at h
    have hct := ih c b h
    show ((if a != c then 1 else 0) + flips (c :: t)) % 2 = if a = b then 0 else 1
    cases a <;> cases c <;> cases b <;> simp_all <;> omega

theorem countP_zip_eq_flips (f : Pt → Bool) :
    ∀ l : List Pt,
      (l.zip l.tail).countP (fun e => f e.1 != f e.2) = flips (l.map f) := by
  intro l
  induction l with
  | nil => rfl
  | cons a t ih =>
    cases t with
    | nil => rfl
    | cons b t2 =>
      show ((a, b) :: (b :: t2).zip (b :: t2).tail).countP _ = _
      rw [List.countP_cons]
      rw [ih]
      show flips (f b :: t2.map f) + (if (f a != f b) = true then 1 else 0)
        = (if f a != f b then 1 else 0) + flips (f b :: t2.map f)
      cases f a <;> cases f b <;> simp <;> omega

theorem straddle_count_even (f : Pt → Bool) (r : Ring)
    (hc : r.head? = r.getLast?) :
    (r.zip r.tail).countP (fun e => f e.1 != f e.2) % 2 = 0 := by
  cases r with
  | nil => rfl
  | cons v t =>
    rw [countP_zip_eq_flips]
    have hlast : (v :: t).getLast? = some v := by
      rw [← hc]; rfl
    have hmap : ((v :: t).map f).getLast? = some (f v) := by
      rw [List.getLast?_map, hlast]; rfl
    have := flips_parity (t.map f) (f v) (f v) (by simpa using hmap)
    simpa using this

/-- The straddle half of the edge test. -/
def straddles (p a b : Pt) : Bool :=
  decide (a.lat > p.lat) != decide (b.lat > p.lat)

theorem straddles_denom (p a b : Pt) (h : straddles p a b = true) :
    (a.lat ≤ p.lat ∧ p.lat < b.lat) ∨ (b.lat ≤ p.lat ∧ p.lat < a.lat) := by
  unfold straddles at h
  by_cases h1 : a.lat > p.lat <;> by_cases h2 : b.lat > p.lat
  · simp [h1, h2] at h
  · right; exact ⟨by linarith, h1⟩
  · left; exact ⟨by linarith, h2⟩
  · simp [h1, h2] at h

/-- The lon coordinate where the edge meets the ray's horizontal line stays
between the endpoints' lons: the ray-intersection factor is in `[0, 1]`. -/
theorem ray_factor_bounds (p a b : Pt) (h : straddles p a b = true) :
    0 ≤ (p.lat - a.lat) / (b.lat - a.lat)
      ∧ (p.lat - a.lat) / (b.lat - a.lat) ≤ 1 := by
  rcases straddles_denom p a b h with ⟨h1, h2⟩ | ⟨h1, h2⟩
  · have hd : 0 < b.lat - a.lat := by linarith
    constructor
    · exact div_nonneg (by linarith) (le_of_lt hd)
    · rw [div_le_one hd]; linarith
  · have hd : b.lat - a.lat < 0 := by linarith
    have hdne : b.lat - a.lat ≠ 0 := ne_of_lt hd
    have htd : (p.lat - a.lat) / (b.lat - a.lat) * (b.lat - a.lat)
        = p.lat - a.lat := div_mul_cancel₀ _ hdne
    constructor
    · by_contra hneg
      push_neg at hneg
      have : 0 < (p.lat - a.lat) / (b.lat - a.lat) * (b.lat - a.lat) :=
        mul_pos_of_neg_of_neg hneg hd
      rw [htd] at this
      linarith
    · by_contra hgt
      push_neg at hgt
      have h3 : 0 < (p.lat - a.lat) / (b.lat - a.lat) - 1 := by linarith
      have : ((p.lat - a.lat) / (b.lat - a.lat) - 1) * (b.lat - a.lat) < 0 :=
        mul_neg_of_pos_of_neg h3 hd
      rw [sub_mul, one_mul, htd] at this
      linarith

theorem edgeCrosses_lon_upper (p a b : Pt) (h : edgeCrosses p a b = true) :
    p.lon < a.lon ∨ p.lon < b.lon := by
  unfold edgeCrosses at h
  rw [Bool.and_eq_true] at h
  obtain ⟨hs, hlon⟩ := h
  rw [decide_eq_true_iff] at hlon
  obtain ⟨ht0, ht1⟩ := ray_factor_bounds p a b hs
  rw [mul_div_assoc] at hlon
  by_cases hab : a.lon ≤ b.lon
  · right
    nlinarith [mul_nonneg (sub_nonneg.mpr hab) (sub_nonneg.mpr ht1)]
  · left
    push_neg at hab
    nlinarith [mul_nonneg (sub_nonneg.mpr (le_of_lt hab)) ht0]

theorem straddle_lon_lower (p a b : Pt) (hs : straddles p a b = true)
    (ha : p.lon < a.lon) (hb : p.lon < b.lon) :
    edgeCrosses p a b = true := by
  unfold edgeCrosses
  rw [Bool.and_eq_true]
  refine ⟨hs, ?_⟩
  rw [decide_eq_true_iff]
  obtain ⟨ht0, ht1⟩ := ray_factor_bounds p a b hs
  rw [mul_div_assoc]
  by_cases hab : a.lon ≤ b.lon
  · nlinarith [mul_nonneg (sub_nonneg.mpr hab) ht0]
  · push_neg at hab
    nlinarith [mul_nonneg (sub_nonneg.mpr (le_of_lt hab)) (sub_nonneg.mpr ht1)]

theorem inRing_exists_crossing (p : Pt) (r : Ring) (h : inRing p r = true) :
    ∃ e ∈ ringEdges r, edgeCrosses p e.1 e.2 = true := by
  unfold inRing at h
  have hodd := of_decide_eq_true h
  unfold crossingCount at hodd
  have hpos : 0 < (ringEdges r).countP (fun e => edgeCrosses p e.1 e.2) := by omega
  exact List.countP_pos_iff.mp hpos

theorem ringEdges_mem (r : Ring) (e : Pt × Pt) (h : e ∈ ringEdges r) :
    e.1 ∈ r ∧ e.2 ∈ r := by
  unfold ringEdges at h
  obtain ⟨a, b⟩ := e
  obtain ⟨h1, h2⟩ := List.of_mem_zip h
  exact ⟨h1, List.mem_of_mem_tail h2⟩

theorem inRing_bounds (p : Pt) (r : Ring) (h : inRing p r = true) :
    (∃ v ∈ r, v.lat ≤ p.lat) ∧ (∃ v ∈ r, p.lat < v.lat) ∧ (∃ v ∈ r, p.lon < v.lon) := by
  obtain ⟨e, hmem, hcross⟩ := inRing_exists_crossing p r h
  obtain ⟨h1, h2⟩ := ringEdges_mem r e hmem
  have hs : straddles p e.1 e.2 = true := by
    unfold edgeCrosses at hcross
    rw [Bool.and_eq_true] at hcross
    exact hcross.1
  have hlon : (∃ v ∈ r, p.lon < v.lon) := by
    rcases edgeCrosses_lon_upper p e.1 e.2 hcross with hl | hl
    · exact ⟨e.1, h1, hl⟩
    · exact ⟨e.2, h2, hl⟩
  rcases straddles_denom p e.1 e.2 hs with ⟨ha, hb⟩ | ⟨ha, hb⟩
  · exact ⟨⟨e.1, h1, ha⟩, ⟨e.2, h2, hb⟩, hlon⟩
  · exact ⟨⟨e.2, h2, ha⟩, ⟨e.1, h1, hb⟩, hlon⟩

theorem inRing_exists_lon_le (p : Pt) (r : Ring) (hc : r.head? = r.getLast?)
    (h : inRing p r = true) : ∃ v ∈ r, v.lon ≤ p.lon := by
  by_contra hno
  push_neg at hno
  have hcong : ∀ e ∈ r.zip r.tail,
      (edgeCrosses p e.1 e.2)
        = ((fun v : Pt => decide (v.lat > p.lat)) e.1
            != (fun v : Pt => decide (v.lat > p.lat)) e.2) := by
    intro e he
    obtain ⟨h1, h2⟩ := ringEdges_mem r e he
    by_cases hs : straddles p e.1 e.2 = true
    · rw [straddle_lon_lower p e.1 e.2 hs (hno e.1 h1) (hno e.2 h2)]
      unfold straddles at hs
      exact hs.symm
    · have hs2 : straddles p e.1 e.2 = false := by
        revert hs; cases straddles p e.1 e.2 <;> simp
      unfold straddles at hs2
      show (_ && _) = _
      rw [hs2]
      simp [hs2]
  have hcount : crossingCount p r
      = (r.zip r.tail).countP (fun e =>
          (fun v : Pt => decide (v.lat > p.lat)) e.1
            != (fun v : Pt => decide (v.lat > p.lat)) e.2) :=
    List.countP_congr (fun e he => by rw [hcong e he])
  have heven := straddle_count_even (fun v : Pt => decide (v.lat > p.lat)) r hc
  unfold inRing at h
  have hodd := of_decide_eq_true h
  rw [hcount] at hodd
  omega

/-- All lat coordinates of a region's vertices. -/
def regionMinLat (r : AdministrativeRegion) : ℚ :=
  minQ ((regionVertices r).map Pt.lat)

/-- Upper lat bound of the region's bounding box. -/
def regionMaxLat (r : AdministrativeRegion) : ℚ :=
  maxQ ((regionVertices r).map Pt.lat)

/-- Lower lon bound of the region's bounding box. -/
def regionMinLon (r : AdministrativeRegion) : ℚ :=
  minQ ((regionVertices r).map Pt.lon)

/-- Upper lon bound of the region's bounding box. -/
def regionMaxLon (r : AdministrativeRegion) : ℚ :=
  maxQ ((regionVertices r).map Pt.lon)

/-- Grid coordinate of a scalar for cell size `cs`. -/
def cellIdx (cs q : ℚ) : ℤ := ⌊q / cs⌋

/-- Modelled from the spec: the grid cell covering a query point (spec §4.3). -/
def cellOf (cs : ℚ) (p : Pt) : ℤ × ℤ := (cellIdx cs p.lat, cellIdx cs p.lon)

/-- Modelled from the spec: `BoundaryIndex.candidates(point)` — the uniform
grid stores each region in every cell intersected by the region's bounding
box, and a query returns the regions stored in the point's cell (spec §4.3). -/
def candidates (cs : ℚ) (regions : List AdministrativeRegion) (p : Pt) :
    List AdministrativeRegion :=
  regions.filter (fun r =>
    decide (cellIdx cs (regionMinLat r) ≤ (cellOf cs p).1)
      && decide ((cellOf cs p).1 ≤ cellIdx cs (regionMaxLat r))
      && decide (cellIdx cs (regionMinLon r) ≤ (cellOf cs p).2)
      && decide ((cellOf cs p).2 ≤ cellIdx cs (regionMaxLon r)))

theorem cellIdx_mono (cs : ℚ) (hcs : 0 < cs) (q1 q2 : ℚ) (h : q1 ≤ q2) :
    cellIdx cs q1 ≤ cellIdx cs q2 := by
  unfold cellIdx
  exact Int.floor_le_floor (by gcongr)

theorem mem_regionVertices_outer (r : AdministrativeRegion) (o : Ring)
    (ho : o ∈ r.outers) (v : Pt) (hv : v ∈ o) : v ∈ regionVertices r := by
  unfold regionVertices
  exact List.mem_flatten.mpr ⟨o, List.mem_append_left _ ho, hv⟩

/-- Claim C4: for every query point contained (by the exact crossing-number
test) in a region with closed outer rings, the grid candidate set includes
that region: candidates is a superset of the true answer. -/
theorem candidates_includes_containing (cs : ℚ) (hcs : 0 < cs)
    (regions : List AdministrativeRegion) (p : Pt) (r : AdministrativeRegion)
    (hmem : r ∈ regions)
    (hclosed : ∀ o ∈ r.outers, o.head? = o.getLast?)
    (hin : inRegion p r = true) :
    r ∈ candidates cs regions p := by
  unfold inRegion at hin
  rw [Bool.and_eq_true] at hin
  obtain ⟨ho, _⟩ := hin
  rw [List.any_eq_true] at ho
  obtain ⟨o, hoin, hring⟩ := ho
  obtain ⟨⟨v1, hv1, hb1⟩, ⟨v2, hv2, hb2⟩, ⟨v3, hv3, hb3⟩⟩ := inRing_bounds p o hring
  obtain ⟨v4, hv4, hb4⟩ := inRing_exists_lon_le p o (hclosed o hoin) hring
  have hlat1 : regionMinLat r ≤ p.lat :=
    le_trans (minQ_le_mem _ v1.lat
      (List.mem_map_of_mem Pt.lat (mem_regionVertices_outer r o hoin v1 hv1))) hb1
  have hlat2 : p.lat ≤ regionMaxLat r :=
    le_trans (le_of_lt hb2) (le_maxQ_mem _ v2.lat
      (List.mem_map_of_mem Pt.lat (mem_regionVertices_outer r o hoin v2 hv2)))
  have hlon1 : regionMinLon r ≤ p.lon :=
    le_trans (minQ_le_mem _ v4.lon
      (List.mem_map_of_mem Pt.lon (mem_regionVertices_outer r o hoin v4 hv4))) hb4
  have hlon2 : p.lon ≤ regionMaxLon r :=
    le_trans (le_of_lt hb3) (le_maxQ_mem _ v3.lon
      (List.mem_map_of_mem Pt.lon (mem_regionVertices_outer r o hoin v3 hv3)))
  apply List.mem_filter.mpr
  refine ⟨hmem, ?_⟩
  simp only [Bool.and_eq_true, decide_eq_true_iff, cellOf]
  exact ⟨⟨⟨cellIdx_mono cs hcs _ _ hlat1, cellIdx_mono cs hcs _ _ hlat2⟩,
    cellIdx_mono cs hcs _ _ hlon1⟩, cellIdx_mono cs hcs _ _ hlon2⟩

/-- Modelled from the spec: `GeoResolver.resolve` — retrieve the grid
candidates, then return the first candidate (fixed, deterministic iteration
order) whose exact crossing-number test succeeds; `none` models `NotFound`
(spec §4.4). -/
def resolve (cs : ℚ) (regions : List AdministrativeRegion) (p : Pt) :
    Option AdministrativeRegion :=
  (candidates cs regions p).find? (fun r => inRegion p r)

theorem inRegion_iff (p : Pt) (r : AdministrativeRegion) :
    inRegion p r = true ↔
      (∃ o ∈ r.outers, inRing p o = true) ∧ ∀ hr ∈ r.holes, inRing p hr = false := by
  unfold inRegion
  rw [Bool.and_eq_true, List.any_eq_true, List.all_eq_true]
  constructor
  · rintro ⟨h1, h2⟩
    refine ⟨h1, fun hr hmem => ?_⟩
    have := h2 hr hmem
    revert this
    cases inRing p hr <;> simp
  · rintro ⟨h1, h2⟩
    refine ⟨h1, fun hr hmem => ?_⟩
    rw [h2 hr hmem]
    rfl

/-- Claim C1: `resolve` returns a region only when the point passes the
exact test against it — inside one of its outer rings and outside every
hole ring of the same region; it returns `NotFound` exactly when no
candidate's exact test succeeds; and a point inside a hole ring of a region
is never resolved to that region. -/
theorem resolve_exact (cs : ℚ) (regions : List AdministrativeRegion) (p : Pt) :
    (∀ r, resolve cs regions p = some r →
        r ∈ regions ∧ (∃ o ∈ r.outers, inRing p o = true)
          ∧ ∀ hr ∈ r.holes, inRing p hr = false)
    ∧ (resolve cs regions p = none ↔
        ∀ r ∈ candidates cs regions p, inRegion p r = false)
    ∧ ∀ r ∈ regions, (∃ hr ∈ r.holes, inRing p hr = true) →
        resolve cs regions p ≠ some r := by
  have hpart1 : ∀ r, resolve cs regions p = some r →
      r ∈ regions ∧ (∃ o ∈ r.outers, inRing p o = true)
        ∧ ∀ hr ∈ r.holes, inRing p hr = false := by
    intro r h
    have hmem : r ∈ candidates cs regions p := List.mem_of_find?_eq_some h
    have hreg : r ∈ regions := (List.mem_filter.mp hmem).1
    have hp : inRegion p r = true := List.find?_some h
    obtain ⟨h1, h2⟩ := (inRegion_iff p r).mp hp
    exact ⟨hreg, h1, h2⟩
  refine ⟨hpart1, ?_, ?_⟩
  · unfold resolve
    rw [List.find?_eq_none]
    constructor
    · intro h r hr
      have := h r hr
      revert this
      cases inRegion p r <;> simp
    · intro h r hr
      rw [h r hr]
      simp
  · intro r hrmem hex heq
    obtain ⟨hr, hhin, hhtrue⟩ := hex
    have := (hpart1 r heq).2.2 hr hhin
    rw [this] at hhtrue
    exact Bool.false_ne_true hhtrue

/-- Outer square boundary used in the concrete examples. -/
def donutOuter : Ring := [⟨0, 0⟩, ⟨0, 10⟩, ⟨10, 10⟩, ⟨10, 0⟩, ⟨0, 0⟩]

/-- Square hole ring inside `donutOuter`. -/
def donutHole : Ring := [⟨4, 4⟩, ⟨4, 6⟩, ⟨6, 6⟩, ⟨6, 4⟩, ⟨4, 4⟩]

/-- A donut-shaped region: the square minus the inner square hole. -/
def donutRegion : AdministrativeRegion :=
  { name := "donut", outers := [donutOuter], holes := [donutHole] }

/-- The plain square region (no hole). -/
def squareRegion : AdministrativeRegion :=
  { name := "square", outers := [donutOuter], holes := [] }

theorem bne_decide_iff (P Q : Prop) [Decidable P] [Decidable Q] :
    ((decide P != decide Q) = true) ↔ ¬(P ↔ Q) := by
  by_cases hP : P <;> by_cases hQ : Q <;> simp [hP, hQ]

theorem edgeCrosses_true_iff (p a b : Pt) :
    edgeCrosses p a b = true ↔
      (¬(a.lat > p.lat ↔ b.lat > p.lat))
        ∧ p.lon < (b.lon - a.lon) * (p.lat - a.lat) / (b.lat - a.lat) + a.lon := by
  unfold edgeCrosses
  rw [Bool.and_eq_true, decide_eq_true_iff, bne_decide_iff]

theorem crossingCount_cons_cons (p a b : Pt) (t : List Pt) :
    crossingCount p (a :: b :: t)
      = crossingCount p (b :: t) + if edgeCrosses p a b = true then 1 else 0 := by
  show List.countP _ ((a, b) :: (b :: t).zip t) = _
  rw [List.countP_cons]
  rfl

theorem crossingCount_single (p a : Pt) : crossingCount p [a] = 0 := rfl

theorem inRing_donutOuter : inRing ⟨5, 5⟩ donutOuter = true := by
  have e1 : edgeCrosses ⟨5, 5⟩ ⟨0, 0⟩ ⟨0, 10⟩ = false := by
    apply Bool.eq_false_iff.mpr
    rw [Ne, edgeCrosses_true_iff]
    norm_num
  have e2 : edgeCrosses ⟨5, 5⟩ ⟨0, 10⟩ ⟨10, 10⟩ = true := by
    rw [edgeCrosses_true_iff]
    norm_num
  have e3 : edgeCrosses ⟨5, 5⟩ ⟨10, 10⟩ ⟨10, 0⟩ = false := by
    apply Bool.eq_false_iff.mpr
    rw [Ne, edgeCrosses_true_iff]
    norm_num
  have e4 : edgeCrosses ⟨5, 5⟩ ⟨10, 0⟩ ⟨0, 0⟩ = false := by
    apply Bool.eq_false_iff.mpr
    rw [Ne, edgeCrosses_true_iff]
    norm_num
  have hc : crossingCount ⟨5, 5⟩ donutOuter = 1 := by
    unfold donutOuter
    rw [crossingCount_cons_cons, crossingCount_cons_cons, crossingCount_cons_cons,
      crossingCount_cons_cons, crossingCount_single, e1, e2, e3, e4]
    rfl
  unfold inRing
  rw [hc]
  rfl

theorem inRing_donutHole : inRing ⟨5, 5⟩ donutHole = true := by
  have e1 : edgeCrosses ⟨5, 5⟩ ⟨4, 4⟩ ⟨4, 6⟩ = false := by
    apply Bool.eq_false_iff.mpr
    rw [Ne, edgeCrosses_true_iff]
    norm_num
  have e2 : edgeCrosses ⟨5, 5⟩ ⟨4, 6⟩ ⟨6, 6⟩ = true := by
    rw [edgeCrosses_true_iff]
    norm_num
  have e3 : edgeCrosses ⟨5, 5⟩ ⟨6, 6⟩ ⟨6, 4⟩ = false := by
    apply Bool.eq_false_iff.mpr
    rw [Ne, edgeCrosses_true_iff]
    norm_num
  have e4 : edgeCrosses ⟨5, 5⟩ ⟨6, 4⟩ ⟨4, 4⟩ = false := by
    apply Bool.eq_false_iff.mpr
    rw [Ne, edgeCrosses_true_iff]
    norm_num
  have hc : crossingCount ⟨5, 5⟩ donutHole = 1 := by
    unfold donutHole
    rw [crossingCount_cons_cons, crossingCount_cons_cons, crossingCount_cons_cons,
      crossingCount_cons_cons, crossingCount_single, e1, e2, e3, e4]
    rfl
  unfold inRing
  rw [hc]
  rfl

theorem inRegion_donut_false : inRegion ⟨5, 5⟩ donutRegion = false := by
  unfold inRegion donutRegion
  simp [inRing_donutHole]

theorem inRegion_square_true : inRegion ⟨5, 5⟩ squareRegion = true := by
  unfold inRegion squareRegion
  simp [inRing_donutOuter]

/-- Witness for C1: the point `(5,5)` lies inside the hole of the donut
region, so resolution over the one-region map returns `NotFound`. -/
theorem resolve_exact_witness : resolve 1 [donutRegion] ⟨5, 5⟩ = none :=
  (resolve_exact 1 [donutRegion] ⟨5, 5⟩).2.1.mpr (by
    intro r hr
    have hrm : r ∈ [donutRegion] := (List.mem_filter.mp hr).1
    rw [List.mem_singleton] at hrm
    subst hrm
    exact inRegion_donut_false)

/-- Witness for C4: the square region containing `(5,5)` is in the candidate
set of its own grid cell. -/
theorem candidates_includes_containing_witness :
    squareRegion ∈ candidates 1 [squareRegion] ⟨5, 5⟩ :=
  candidates_includes_containing 1 (by norm_num) [squareRegion] ⟨5, 5⟩
    squareRegion (List.mem_singleton.mpr rfl)
    (by
      intro o ho
      have ho2 : o ∈ [donutOuter] := ho
      rw [List.mem_singleton] at ho2
      subst ho2
      rfl)
    inRegion_square_true

/-! ## Claim C8: `obj2dataAttribute` and the browser-side decode

`hbsHelpers.js` lines 105-109:
```
function obj2dataAttribute (obj) {
  const str = encodeURIComponent(JSON.stringify(obj || {}))
  return str
}
```
`views/js/postal-code.js` lines 3-4:
```
const postcodeData = JSON.parse(decodeURIComponent(postcodeDataDomEl.dataset.postcode))
```
JSON values are modelled by the `Json` inductive: numbers are integers
(IEEE doubles abstracted; the fraction/exponent forms never emitted for
integral values are outside the model), strings are lists of Unicode code
points, objects are ordered key/value lists (JavaScript objects preserve
insertion order). `JSON.stringify` emits the compact form with ES2019
well-formed escaping; `JSON.parse` is a recursive-descent parser of the
JSON grammar, fuel-bounded by the input length (ample for any serialized
value); `encodeURIComponent` keeps the unreserved characters and
percent-encodes the UTF-8 bytes of every other character with uppercase
hex; `decodeURIComponent` reverses this. `obj || {}` replaces every falsy
argument (undefined, null, false, 0, NaN, the empty string) by `{}`; the
model's `Json.nul` stands for both `null` and `undefined`. -/

/-- A JavaScript JSON value. -/
inductive Json where
  | nul : Json
  | bool : Bool → Json
  | num : Int → Json
  | str : List Nat → Json
  | arr : List Json → Json
  | obj : List (List Nat × Json) → Json

/-- Uppercase hexadecimal digit of a value below 16. -/
def hexDigit (n : Nat) : Nat := if n < 10 then 48 + n else 55 + n

/-- Value of a hexadecimal digit character (either case), if it is one. -/
def hexVal (c : Nat) : Option Nat :=
  if 48 ≤ c ∧ c ≤ 57 then some (c - 48)
  else if 65 ≤ c ∧ c ≤ 70 then some (c - 55)
  else if 97 ≤ c ∧ c ≤ 102 then some (c - 87)
  else none

/-- Decimal digit expansion of a natural number; the fuel argument only
drives the recursion and is irrelevant once it exceeds the number. -/
def natDigitsAux : Nat → Nat → List Nat
  | 0, _ => []
  | fuel + 1, n =>
    if n < 10 then [48 + n] else natDigitsAux fuel (n / 10) ++ [48 + n % 10]

/-- Decimal digit characters of a natural number. -/
def natDigits (n : Nat) : List Nat := natDigitsAux (n + 1) n

/-- Decimal representation of an integer, as emitted by `JSON.stringify`. -/
def intDigits (i : Int) : List Nat :=
  if i < 0 then 45 :: natDigits i.natAbs else natDigits i.natAbs

/-- ES2019 `JSON.stringify` escaping of one string character. -/
def escapeChar (c : Nat) : List Nat :=
  if c = 34 then [92, 34]
  else if c = 92 then [92, 92]
  else if c = 8 then [92, 98]
  else if c = 9 then [92, 116]
  else if c = 10 then [92, 110]
  else if c = 12 then [92, 102]
  else if c = 13 then [92, 114]
  else if c < 32 then [92, 117, 48, 48, hexDigit (c / 16), hexDigit (c % 16)]
  else [c]

/-- The quoted, escaped form of a string. -/
def quoteStr (s : List Nat) : List Nat :=
  34 :: ((s.map escapeChar).flatten ++ [34])

mutual

/-- `JSON.stringify` (compact form, no indentation), as a code-point list. -/
def stringify : Json → List Nat
  | Json.nul => [110, 117, 108, 108]
  | Json.bool true => [116, 114, 117, 101]
  | Json.bool false => [102, 97, 108, 115, 101]
  | Json.num i => intDigits i
  | Json.str s => quoteStr s
  | Json.arr xs => 91 :: (stringifyItems xs ++ [93])
  | Json.obj fs => 123 :: (stringifyMembers fs ++ [125])

/-- Comma-separated serialization of array elements. -/
def stringifyItems : List Json → List Nat
  | [] => []
  | [x] => stringify x
  | x :: y :: t => stringify x ++ 44 :: stringifyItems (y :: t)

/-- Comma-separated serialization of object members. -/
def stringifyMembers : List (List Nat × Json) → List Nat
  | [] => []
  | [(k, v)] => quoteStr k ++ 58 :: stringify v
  | (k, v) :: m :: t => quoteStr k ++ 58 :: stringify v ++ 44 :: stringifyMembers (m :: t)

end

/-- JSON whitespace. -/
def isWs (c : Nat) : Bool := c == 32 || c == 9 || c == 10 || c == 13

/-- Skip leading JSON whitespace. -/
def skipWs : List Nat → List Nat
  | [] => []
  | c :: rest => if isWs c then skipWs rest else c :: rest

/-- Decimal digit character test. -/
def isDigitCode (c : Nat) : Bool := 48 ≤ c && c ≤ 57

/-- Maximal-munch decimal digits with accumulator. -/
def parseDigitsAux : List Nat → Nat → Nat × List Nat
  | [], acc => (acc, [])
  | c :: r, acc =>
    if isDigitCode c then parseDigitsAux r (10 * acc + (c - 48)) else (acc, c :: r)

/-- Parse a nonempty digit run. -/
def parseNum : List Nat → Option (Nat × List Nat)
  | [] => none
  | c :: r => if isDigitCode c then some (parseDigitsAux r (c - 48)) else none

/-- Decode one escape sequence after a backslash: the escaped character and
the remaining input. -/
def readEscape (r : List Nat) : Option (Nat × List Nat) :=
  match r with
  | [] => none
  | e :: r2 =>
    if e = 34 then some (34, r2)
    else if e = 92 then some (92, r2)
    else if e = 47 then some (47, r2)
    else if e = 98 then some (8, r2)
    else if e = 102 then some (12, r2)
    else if e = 110 then some (10, r2)
    else if e = 114 then some (13, r2)
    else if e = 116 then some (9, r2)
    else if e = 117 then
      match r2 with
      | h1 :: h2 :: h3 :: h4 :: r3 =>
        match hexVal h1, hexVal h2, hexVal h3, hexVal h4 with
        | some a, some b, some cc, some d =>
          some (4096 * a + 256 * b + 16 * cc + d, r3)
        | _, _, _, _ => none
      | _ => none
    else none

/-- Parse the characters of a JSON string after the opening quote, up to and
including the closing quote; raw control characters are rejected. The fuel
only drives the recursion (each step consumes input). -/
def parseStrChars : Nat → List Nat → Option (List Nat × List Nat)
  | 0, _ => none
  | _ + 1, [] => none
  | fuel + 1, c :: r =>
    if c = 34 then some ([], r)
    else if c = 92 then
      match readEscape r with
      | some p => (parseStrChars fuel p.2).map (fun q => (p.1 :: q.1, q.2))
      | none => none
    else if c < 32 then none
    else (parseStrChars fuel r).map (fun q => (c :: q.1, q.2))

/-- Recursive-descent JSON value parser. The fuel only drives the recursion;
the tail of an array or object is parsed by re-entering the function on the
input with the opening bracket restored, so each recursive call works on a
strictly shorter text. -/
def parseVal : Nat → List Nat → Option (Json × List Nat)
  | 0, _ => none
  | fuel + 1, input =>
    match skipWs input with
    | [] => none
    | c :: rest =>
      if c = 110 then
        match rest with
        | 117 :: 108 :: 108 :: r => some (Json.nul, r)
        | _ => none
      else if c = 116 then
        match rest with
        | 114 :: 117 :: 101 :: r => some (Json.bool true, r)
        | _ => none
      else if c = 102 then
        match rest with
        | 97 :: 108 :: 115 :: 101 :: r => some (Json.bool false, r)
        | _ => none
      else if c = 34 then
        (parseStrChars (rest.length + 1) rest).map (fun p => (Json.str p.1, p.2))
      else if c = 45 then
        match parseNum rest with
        | some (n, r) => some (Json.num (-(n : Int)), r)
        | none => none
      else if isDigitCode c then
        match parseNum (c :: rest) with
        | some (n, r) => some (Json.num (n : Int), r)
        | none => none
      else if c = 91 then
        match skipWs rest with
        | [] => none
        | c2 :: r2 =>
          if c2 = 93 then some (Json.arr [], r2)
          else
            match parseVal fuel rest with
            | some (x, r1) =>
              match skipWs r1 with
              | 44 :: r2b =>
                match parseVal fuel (91 :: r2b) with
                | some (Json.arr xs, r3) => some (Json.arr (x :: xs), r3)
                | _ => none
              | 93 :: r2b => some (Json.arr [x], r2b)
              | _ => none
            | none => none
      else if c = 123 then
        match skipWs rest with
        | [] => none
        | c2 :: r2 =>
          if c2 = 125 then some (Json.obj [], r2)
          else if c2 = 34 then
            match parseStrChars (r2.length + 1) r2 with
            | some (k, r3) =>
              match skipWs r3 with
              | 58 :: r4 =>
                match parseVal fuel r4 with
                | some (v, r5) =>
                  match skipWs r5 with
                  | 44 :: r6 =>
                    match parseVal fuel (123 :: r6) with
                    | some (Json.obj fs, r7) => some (Json.obj ((k, v) :: fs), r7)
                    | _ => none
                  | 125 :: r6 => some (Json.obj [(k, v)], r6)
                  | _ => none
                | none => none
              | _ => none
            | none => none
          else none
      else none

/-- `JSON.parse`: a whole-input parse with trailing whitespace allowed. -/
def jsonParse (s : List Nat) : Option Json :=
  match parseVal (s.length + 1) s with
  | some (j, r) => if skipWs r = [] then some j else none
  | none => none

/-- Characters `encodeURIComponent` leaves unescaped. -/
def isUnreservedChar (c : Nat) : Bool :=
  (65 ≤ c && c ≤ 90) || (97 ≤ c && c ≤ 122) || (48 ≤ c && c ≤ 57)
    || c == 45 || c == 95 || c == 46 || c == 33 || c == 126 || c == 42
    || c == 39 || c == 40 || c == 41

/-- UTF-8 bytes of a code point. -/
def utf8Encode (c : Nat) : List Nat :=
  if c < 128 then [c]
  else if c < 2048 then [192 + c / 64, 128 + c % 64]
  else if c < 65536 then [224 + c / 4096, 128 + c / 64 % 64, 128 + c % 64]
  else [240 + c / 262144, 128 + c / 4096 % 64, 128 + c / 64 % 64, 128 + c % 64]

/-- Percent-escape of one byte, uppercase hex. -/
def pctByte (b : Nat) : List Nat := [37, hexDigit (b / 16), hexDigit (b % 16)]

/-- `encodeURIComponent` on one character. -/
def uriEncodeChar (c : Nat) : List Nat :=
  if isUnreservedChar c then [c] else ((utf8Encode c).map pctByte).flatten

/-- `encodeURIComponent` over a code-point string. -/
def uriEncode (s : List Nat) : List Nat := (s.map uriEncodeChar).flatten

/-- Read one percent-escaped byte. -/
def readPctByte : List Nat → Option (Nat × List Nat)
  | 37 :: h1 :: h2 :: r =>
    match hexVal h1, hexVal h2 with
    | some a, some b => some (16 * a + b, r)
    | _, _ => none
  | _ => none

/-- UTF-8 continuation byte test. -/
def isCont (b : Nat) : Bool := 128 ≤ b && b < 192

/-- Decode one percent-escaped UTF-8 group (1-4 `%XX` units) into a code
point and the remaining input. -/
def decodePctGroup (s : List Nat) : Option (Nat × List Nat) :=
  (readPctByte s).bind (fun p =>
    if p.1 < 128 then some (p.1, p.2)
    else if p.1 < 192 then none
    else if p.1 < 224 then
      (readPctByte p.2).bind (fun q =>
        if isCont q.1 then some ((p.1 - 192) * 64 + (q.1 - 128), q.2) else none)
    else if p.1 < 240 then
      (readPctByte p.2).bind (fun q =>
        (readPctByte q.2).bind (fun u =>
          if isCont q.1 && isCont u.1 then
            some ((p.1 - 224) * 4096 + (q.1 - 128) * 64 + (u.1 - 128), u.2)
          else none))
    else if p.1 < 248 then
      (readPctByte p.2).bind (fun q =>
        (readPctByte q.2).bind (fun u =>
          (readPctByte u.2).bind (fun w =>
            if isCont q.1 && isCont u.1 && isCont w.1 then
              some ((p.1 - 240) * 262144 + (q.1 - 128) * 4096
                + (u.1 - 128) * 64 + (w.1 - 128), w.2)
            else none)))
    else none)

/-- `decodeURIComponent`: percent-escapes are decoded and reassembled along
UTF-8 sequence structure; all other characters pass through; `none` models a
thrown `URIError`. -/
def uriDecodeAux : Nat → List Nat → Option (List Nat)
  | _, [] => some []
  | 0, _ :: _ => none
  | fuel + 1, c :: rest =>
    if c = 37 then
      (decodePctGroup (c :: rest)).bind
        (fun p => (uriDecodeAux fuel p.2).map (fun t => p.1 :: t))
    else (uriDecodeAux fuel rest).map (fun t => c :: t)

/-- `decodeURIComponent` over a code-point string. -/
def uriDecode (s : List Nat) : Option (List Nat) := uriDecodeAux s.length s

/-- JavaScript truthiness on JSON values (`undefined` behaves as `nul`). -/
def jsFalsy : Json → Bool
  | Json.nul => true
  | Json.bool b => !b
  | Json.num i => i == 0
  | Json.str s => s.isEmpty
  | _ => false

/-- `obj2dataAttribute` (`hbsHelpers.js` lines 105-109):
`encodeURIComponent(JSON.stringify(obj || {}))`. -/
def obj2dataAttribute (j : Json) : List Nat :=
  uriEncode (stringify (if jsFalsy j then Json.obj [] else j))

/-- Browser-side decode (`postal-code.js` line 4):
`JSON.parse(decodeURIComponent(...))`. -/
def postcodeDecode (s : List Nat) : Option Json :=
  (uriDecode s).bind jsonParse

/-- Code points representable by the model's generalized UTF-8 coder; every
JavaScript string satisfies the bound (its code points are below 0x110000). -/
def wfText (s : List Nat) : Bool := s.all (fun c => c < 2097152)

theorem hexVal_hexDigit : ∀ n, n < 16 → hexVal (hexDigit n) = some n := by decide

theorem readPctByte_cons (b : Nat) (hb : b < 256) (r : List Nat) :
    readPctByte (37 :: hexDigit (b / 16) :: hexDigit (b % 16) :: r) = some (b, r) := by
  have h1 : hexVal (hexDigit (b / 16)) = some (b / 16) := hexVal_hexDigit _ (by omega)
  have h2 : hexVal (hexDigit (b % 16)) = some (b % 16) := hexVal_hexDigit _ (by omega)
  simp [readPctByte, h1, h2]
  omega

theorem isUnreservedChar_ne_pct (c : Nat) (h : isUnreservedChar c = true) :
    c ≠ 37 := by
  intro hc
  subst hc
  simp [isUnreservedChar] at h

theorem uriDecodeAux_nil (fuel : Nat) : uriDecodeAux fuel [] = some [] := by
  cases fuel <;> rfl

theorem uriDecodeAux_cons (f c : Nat) (rest : List Nat) :
    uriDecodeAux (f + 1) (c :: rest)
      = if c = 37 then
          (decodePctGroup (c :: rest)).bind
            (fun p => (uriDecodeAux f p.2).map (fun t => p.1 :: t))
        else (uriDecodeAux f rest).map (fun t => c :: t) := rfl

theorem utf8Encode_ne_nil (c : Nat) : ∃ b0 bs, utf8Encode c = b0 :: bs := by
  unfold utf8Encode
  split
  · exact ⟨_, _, rfl⟩
  · split
    · exact ⟨_, _, rfl⟩
    · split
      · exact ⟨_, _, rfl⟩
      · exact ⟨_, _, rfl⟩

theorem decodePctGroup_utf8 (c : Nat) (hc : c < 2097152) (r : List Nat) :
    decodePctGroup (((utf8Encode c).map pctByte).flatten ++ r) = some (c, r) := by
  by_cases h1 : c < 128
  · have hs : ((utf8Encode c).map pctByte).flatten ++ r
        = 37 :: hexDigit (c / 16) :: hexDigit (c % 16) :: r := by
      rw [utf8Encode, if_pos h1]
      simp [pctByte]
    rw [hs]
    unfold decodePctGroup
    rw [readPctByte_cons c (by omega) r]
    simp [Option.bind, h1]
  · by_cases h2 : c < 2048
    · have hs : ((utf8Encode c).map pctByte).flatten ++ r
          = 37 :: hexDigit ((192 + c / 64) / 16) :: hexDigit ((192 + c / 64) % 16)
            :: (37 :: hexDigit ((128 + c % 64) / 16) :: hexDigit ((128 + c % 64) % 16) :: r) := by
        rw [utf8Encode, if_neg h1, if_pos h2]
        simp [pctByte]
      rw [hs]
      unfold decodePctGroup
      rw [readPctByte_cons (192 + c / 64) (by omega)]
      have hb1 : ¬(192 + c / 64 < 128) := by omega
      have hb2 : ¬(192 + c / 64 < 192) := by omega
      have hb3 : 192 + c / 64 < 224 := by omega
      simp only [Option.bind, if_neg hb1, if_neg hb2, if_pos hb3]
      rw [readPctByte_cons (128 + c % 64) (by omega) r]
      have hcont : isCont (128 + c % 64) = true := by
        simp [isCont]
        omega
      simp only [Option.bind, hcont, if_pos rfl]
      have hval : (192 + c / 64 - 192) * 64 + (128 + c % 64 - 128) = c := by omega
      simp [hval]
      omega
    · by_cases h3 : c < 65536
      · have hs : ((utf8Encode c).map pctByte).flatten ++ r
            = 37 :: hexDigit ((224 + c / 4096) / 16) :: hexDigit ((224 + c / 4096) % 16)
              :: (37 :: hexDigit ((128 + c / 64 % 64) / 16)
                :: hexDigit ((128 + c / 64 % 64) % 16)
                :: (37 :: hexDigit ((128 + c % 64) / 16)
                  :: hexDigit ((128 + c % 64) % 16) :: r)) := by
          rw [utf8Encode, if_neg h1, if_neg h2, if_pos h3]
          simp [pctByte]
        rw [hs]
        unfold decodePctGroup
        rw [readPctByte_cons (224 + c / 4096) (by omega)]
        have hb1 : ¬(224 + c / 4096 < 128) := by omega
        have hb2 : ¬(224 + c / 4096 < 192) := by omega
        have hb3 : ¬(224 + c / 4096 < 224) := by omega
        have hb4 : 224 + c / 4096 < 240 := by omega
        simp only [Option.bind, if_neg hb1, if_neg hb2, if_neg hb3, if_pos hb4]
        rw [readPctByte_cons (128 + c / 64 % 64) (by omega)]
        simp only [Option.bind]
        rw [readPctByte_cons (128 + c % 64) (by omega) r]
        have hcont : (isCont (128 + c / 64 % 64) && isCont (128 + c % 64)) = true := by
          simp [isCont]
          omega
        simp only [Option.bind, hcont, if_pos rfl]
        have hval : (224 + c / 4096 - 224) * 4096 + (128 + c / 64 % 64 - 128) * 64
            + (128 + c % 64 - 128) = c := by omega
        simp [hval]
        omega
      · have hs : ((utf8Encode c).map pctByte).flatten ++ r
            = 37 :: hexDigit ((240 + c / 262144) / 16) :: hexDigit ((240 + c / 262144) % 16)
              :: (37 :: hexDigit ((128 + c / 4096 % 64) / 16)
                :: hexDigit ((128 + c / 4096 % 64) % 16)
                :: (37 :: hexDigit ((128 + c / 64 % 64) / 16)
                  :: hexDigit ((128 + c / 64 % 64) % 16)
                  :: (37 :: hexDigit ((128 + c % 64) / 16)
                    :: hexDigit ((128 + c % 64) % 16) :: r))) := by
          rw [utf8Encode, if_neg h1, if_neg h2, if_neg h3]
          simp [pctByte]
        rw [hs]
        unfold decodePctGroup
        rw [readPctByte_cons (240 + c / 262144) (by omega)]
        have hb1 : ¬(240 + c / 262144 < 128) := by omega
        have hb2 : ¬(240 + c / 262144 < 192) := by omega
        have hb3 : ¬(240 + c / 262144 < 224) := by omega
        have hb4 : ¬(240 + c / 262144 < 240) := by omega
        have hb5 : 240 + c / 262144 < 248 := by omega
        simp only [Option.bind, if_neg hb1, if_neg hb2, if_neg hb3, if_neg hb4, if_pos hb5]
        rw [readPctByte_cons (128 + c / 4096 % 64) (by omega)]
        simp only [Option.bind]
        rw [readPctByte_cons (128 + c / 64 % 64) (by omega)]
        simp only [Option.bind]
        rw [readPctByte_cons (128 + c % 64) (by omega) r]
        have hcont : (isCont (128 + c / 4096 % 64) && isCont (128 + c / 64 % 64)
            && isCont (128 + c % 64)) = true := by
          simp [isCont]
          omega
        simp only [Option.bind, hcont, if_pos rfl]
        have hval : (240 + c / 262144 - 240) * 262144 + (128 + c / 4096 % 64 - 128) * 4096
            + (128 + c / 64 % 64 - 128) * 64 + (128 + c % 64 - 128) = c := by omega
        simp [hval]
        omega

theorem uriDecodeAux_uriEncode : ∀ (s : List Nat) (fuel : Nat),
    s.length ≤ fuel → (∀ c ∈ s, c < 2097152) →
    uriDecodeAux fuel (uriEncode s) = some s := by
  intro s
  induction s with
  | nil =>
    intro fuel _ _
    exact uriDecodeAux_nil fuel
  | cons c t ih =>
    intro fuel hlen hwf
    have hc : c < 2097152 := hwf c (by simp)
    have hwt : ∀ x ∈ t, x < 2097152 := fun x hx => hwf x (List.mem_cons_of_mem _ hx)
    cases fuel with
    | zero => simp at hlen
    | succ f =>
      have hlf : t.length ≤ f := by simpa using hlen
      have hrec := ih f hlf hwt
      by_cases hu : isUnreservedChar c = true
      · have hne : c ≠ 37 := isUnreservedChar_ne_pct c hu
        have hs : uriEncode (c :: t) = c :: uriEncode t := by
          show (uriEncodeChar c :: t.map uriEncodeChar).flatten = _
          rw [List.flatten_cons, uriEncodeChar, if_pos hu]
          rfl
        rw [hs, uriDecodeAux_cons, if_neg hne, hrec]
        rfl
      · have hs : uriEncode (c :: t) = ((utf8Encode c).map pctByte).flatten ++ uriEncode t := by
          show (uriEncodeChar c :: t.map uriEncodeChar).flatten = _
          rw [List.flatten_cons, uriEncodeChar, if_neg hu]
          rfl
        obtain ⟨b0, bs, hb⟩ := utf8Encode_ne_nil c
        have hhead : ((utf8Encode c).map pctByte).flatten ++ uriEncode t
            = 37 :: (((hexDigit (b0 / 16) :: hexDigit (b0 % 16) :: (bs.map pctByte).flatten))
              ++ uriEncode t) := by
          rw [hb]
          simp [pctByte]
        have hgroup := decodePctGroup_utf8 c hc (uriEncode t)
        rw [hs, hhead]
        rw [hhead] at hgroup
        rw [uriDecodeAux_cons, if_pos rfl, hgroup]
        simp only [Option.bind]
        rw [hrec]
        rfl

theorem length_le_uriEncode (s : List Nat) : s.length ≤ (uriEncode s).length := by
  induction s with
  | nil => simp [uriEncode]
  | cons c t ih =>
    show (c :: t).length ≤ (uriEncodeChar c ++ uriEncode t).length
    rw [List.length_append, List.length_cons]
    have : 1 ≤ (uriEncodeChar c).length := by
      unfold uriEncodeChar utf8Encode
      split
      · simp
      · split
        · simp [pctByte]
        · split
          · simp [pctByte]
          · split <;> simp [pctByte]
    omega

/-- The percent-codec roundtrip: decoding an encoded string recovers it. -/
theorem uriDecode_uriEncode (s : List Nat) (hwf : wfText s = true) :
    uriDecode (uriEncode s) = some s := by
  unfold uriDecode
  apply uriDecodeAux_uriEncode s _ (length_le_uriEncode s)
  intro c hcmem
  unfold wfText at hwf
  rw [List.all_eq_true] at hwf
  exact of_decide_eq_true (hwf c hcmem)

mutual

/-- Recursion budget consumed by the parser on a value: one unit per value
plus one per container element. -/
def jsonFuel : Json → Nat
  | Json.nul => 1
  | Json.bool _ => 1
  | Json.num _ => 1
  | Json.str _ => 1
  | Json.arr xs => 1 + listFuel xs
  | Json.obj fs => 1 + membersFuel fs

/-- Parser budget of array elements. -/
def listFuel : List Json → Nat
  | [] => 0
  | x :: t => jsonFuel x + 1 + listFuel t

/-- Parser budget of object members. -/
def membersFuel : List (List Nat × Json) → Nat
  | [] => 0
  | kv :: t => jsonFuel kv.2 + 1 + membersFuel t

end

theorem jsonFuel_pos (j : Json) : 1 ≤ jsonFuel j := by
  cases j <;> simp [jsonFuel]

/-- The continuation after a parsed number must not start with a digit
(maximal munch); every follower produced by the serializer satisfies this. -/
def headNotDigit : List Nat → Bool
  | [] => true
  | c :: _ => !isDigitCode c

theorem natDigitsAux_digits : ∀ (fuel n : Nat), ∀ d ∈ natDigitsAux fuel n,
    48 ≤ d ∧ d ≤ 57 := by
  intro fuel
  induction fuel with
  | zero => intro n d hd; simp [natDigitsAux] at hd
  | succ f ih =>
    intro n d hd
    unfold natDigitsAux at hd
    by_cases hn : n < 10
    · rw [if_pos hn] at hd
      simp at hd
      omega
    · rw [if_neg hn] at hd
      rw [List.mem_append] at hd
      rcases hd with hd | hd
      · exact ih _ d hd
      · simp at hd
        have := Nat.mod_lt n (show 0 < 10 by omega)
        omega

theorem natDigitsAux_ne_nil (fuel n : Nat) (h : 0 < fuel) :
    natDigitsAux fuel n ≠ [] := by
  cases fuel with
  | zero => omega
  | succ f =>
    unfold natDigitsAux
    by_cases hn : n < 10
    · simp [hn]
    · rw [if_neg hn]
      simp

theorem natDigitsAux_foldl : ∀ (fuel n acc : Nat), n < fuel →
    (natDigitsAux fuel n).foldl (fun a d => 10 * a + (d - 48)) acc
      = acc * 10 ^ (natDigitsAux fuel n).length + n := by
  intro fuel
  induction fuel with
  | zero => intro n acc h; omega
  | succ f ih =>
    intro n acc h
    unfold natDigitsAux
    by_cases hn : n < 10
    · rw [if_pos hn]
      simp [List.foldl]
      omega
    · rw [if_neg hn, List.foldl_append, ih (n / 10) acc (by omega)]
      have hlen : (natDigitsAux f (n / 10) ++ [48 + n % 10]).length
          = (natDigitsAux f (n / 10)).length + 1 := by simp
      rw [hlen, pow_succ, ← mul_assoc]
      simp only [List.foldl_cons, List.foldl_nil]
      generalize acc * 10 ^ (natDigitsAux f (n / 10)).length = X
      omega

theorem parseDigitsAux_append : ∀ (ds rest : List Nat) (acc : Nat),
    (∀ d ∈ ds, 48 ≤ d ∧ d ≤ 57) → headNotDigit rest = true →
    parseDigitsAux (ds ++ rest) acc
      = (ds.foldl (fun a d => 10 * a + (d - 48)) acc, rest) := by
  intro ds
  induction ds with
  | nil =>
    intro rest acc _ hrest
    cases rest with
    | nil => rfl
    | cons c r =>
      unfold headNotDigit at hrest
      rw [Bool.not_eq_true'] at hrest
      show parseDigitsAux (c :: r) acc = _
      unfold parseDigitsAux
      simp [hrest]
  | cons d ds2 ih =>
    intro rest acc hds hrest
    have hd := hds d (by simp)
    have hdd : isDigitCode d = true := by
      simp [isDigitCode]
      omega
    rw [List.cons_append]
    show parseDigitsAux (d :: (ds2 ++ rest)) acc = _
    unfold parseDigitsAux
    rw [if_pos hdd, ih rest _ (fun x hx => hds x (by simp [hx])) hrest]
    simp [List.foldl]

theorem parseNum_natDigits (n : Nat) (rest : List Nat)
    (hrest : headNotDigit rest = true) :
    parseNum (natDigits n ++ rest) = some (n, rest) := by
  have hne := natDigitsAux_ne_nil (n + 1) n (by omega)
  obtain ⟨d, ds, hd⟩ : ∃ d ds, natDigitsAux (n + 1) n = d :: ds := by
    cases hx : natDigitsAux (n + 1) n with
    | nil => exact absurd hx hne
    | cons a b => exact ⟨a, b, rfl⟩
  have hdig := natDigitsAux_digits (n + 1) n
  have hfold := natDigitsAux_foldl (n + 1) n 0 (by omega)
  rw [hd] at hfold
  unfold natDigits
  rw [hd]
  have hd0 : 48 ≤ d ∧ d ≤ 57 := hdig d (by rw [hd]; simp)
  have hdd : isDigitCode d = true := by
    simp [isDigitCode]
    omega
  rw [List.cons_append]
  show parseNum (d :: (ds ++ rest)) = some (n, rest)
  simp only [parseNum]
  rw [if_pos hdd]
  rw [parseDigitsAux_append ds rest (d - 48)
    (fun x hx => hdig x (by rw [hd]; simp [hx])) hrest]
  have hval : ds.foldl (fun a x => 10 * a + (x - 48)) (d - 48) = n := by
    rw [List.foldl_cons] at hfold
    have h10 : 10 * 0 + (d - 48) = d - 48 := by omega
    rw [h10] at hfold
    rw [hfold]
    simp
  rw [hval]

theorem escapeChar_length_pos (c : Nat) : 1 ≤ (escapeChar c).length := by
  unfold escapeChar
  split
  · simp
  all_goals split
  all_goals first
    | simp
    | (split
       all_goals first
        | simp
        | (split
           all_goals first
            | simp
            | (split
               all_goals first
                | simp
                | (split
                   all_goals first
                    | simp
                    | (split
                       all_goals first
                        | simp
                        | (split <;> simp))))))

theorem parseStrChars_quoted : ∀ (s : List Nat) (fuel : Nat) (rest : List Nat),
    ((s.map escapeChar).flatten ++ (34 :: rest)).length ≤ fuel →
    parseStrChars fuel ((s.map escapeChar).flatten ++ (34 :: rest)) = some (s, rest) := by
  intro s
  induction s with
  | nil =>
    intro fuel rest hlen
    cases fuel with
    | zero => simp at hlen
    | succ f =>
      show parseStrChars (f + 1) (34 :: rest) = some ([], rest)
      simp [parseStrChars]
  | cons c t ih =>
    intro fuel rest hlen
    have hflat : (((c :: t).map escapeChar).flatten ++ (34 :: rest))
        = escapeChar c ++ ((t.map escapeChar).flatten ++ (34 :: rest)) := by
      simp
    rw [hflat] at hlen ⊢
    cases fuel with
    | zero =>
      have := escapeChar_length_pos c
      rw [List.length_append] at hlen
      omega
    | succ f =>
      by_cases h34 : c = 34
      · subst h34
        rw [show escapeChar 34 = [92, 34] from rfl] at hlen ⊢
        have hX : ((t.map escapeChar).flatten ++ (34 :: rest)).length ≤ f := by
          simp only [List.length_append, List.length_cons, List.length_nil] at hlen ⊢
          omega
        have hih := ih f rest hX
        show parseStrChars (f + 1) (92 :: 34 :: _) = _
        simp [parseStrChars, readEscape, hih]
      · by_cases h92 : c = 92
        · subst h92
          rw [show escapeChar 92 = [92, 92] from rfl] at hlen ⊢
          have hX : ((t.map escapeChar).flatten ++ (34 :: rest)).length ≤ f := by
            simp only [List.length_append, List.length_cons, List.length_nil] at hlen ⊢
            omega
          have hih := ih f rest hX
          show parseStrChars (f + 1) (92 :: 92 :: _) = _
          simp [parseStrChars, readEscape, hih]
        · by_cases h8 : c = 8
          · subst h8
            rw [show escapeChar 8 = [92, 98] from rfl] at hlen ⊢
            have hX : ((t.map escapeChar).flatten ++ (34 :: rest)).length ≤ f := by
              simp only [List.length_append, List.length_cons, List.length_nil] at hlen ⊢
              omega
            have hih := ih f rest hX
            show parseStrChars (f + 1) (92 :: 98 :: _) = _
            simp [parseStrChars, readEscape, hih]
          · by_cases h9 : c = 9
            · subst h9
              rw [show escapeChar 9 = [92, 116] from rfl] at hlen ⊢
              have hX : ((t.map escapeChar).flatten ++ (34 :: rest)).length ≤ f := by
                simp only [List.length_append, List.length_cons, List.length_nil] at hlen ⊢
                omega
              have hih := ih f rest hX
              show parseStrChars (f + 1) (92 :: 116 :: _) = _
              simp [parseStrChars, readEscape, hih]
            · by_cases h10 : c = 10
              · subst h10
                rw [show escapeChar 10 = [92, 110] from rfl] at hlen ⊢
                have hX : ((t.map escapeChar).flatten ++ (34 :: rest)).length ≤ f := by
                  simp only [List.length_append, List.length_cons, List.length_nil] at hlen ⊢
                  omega
                have hih := ih f rest hX
                show parseStrChars (f + 1) (92 :: 110 :: _) = _
                simp [parseStrChars, readEscape, hih]
              · by_cases h12 : c = 12
                · subst h12
                  rw [show escapeChar 12 = [92, 102] from rfl] at hlen ⊢
                  have hX : ((t.map escapeChar).flatten ++ (34 :: rest)).length ≤ f := by
                    simp only [List.length_append, List.length_cons, List.length_nil] at hlen ⊢
                    omega
                  have hih := ih f rest hX
                  show parseStrChars (f + 1) (92 :: 102 :: _) = _
                  simp [parseStrChars, readEscape, hih]
                · by_cases h13 : c = 13
                  · subst h13
                    rw [show escapeChar 13 = [92, 114] from rfl] at hlen ⊢
                    have hX : ((t.map escapeChar).flatten ++ (34 :: rest)).length ≤ f := by
                      simp only [List.length_append, List.length_cons, List.length_nil] at hlen ⊢
                      omega
                    have hih := ih f rest hX
                    show parseStrChars (f + 1) (92 :: 114 :: _) = _
                    simp [parseStrChars, readEscape, hih]
                  · by_cases h32 : c < 32
                    · have hesc : escapeChar c
                          = [92, 117, 48, 48, hexDigit (c / 16), hexDigit (c % 16)] := by
                        rw [escapeChar, if_neg h34, if_neg h92, if_neg h8, if_neg h9,
                          if_neg h10, if_neg h12, if_neg h13, if_pos h32]
                      rw [hesc] at hlen ⊢
                      have hX : ((t.map escapeChar).flatten ++ (34 :: rest)).length ≤ f := by
                        simp only [List.length_append, List.length_cons, List.length_nil] at hlen ⊢
                        omega
                      have hih := ih f rest hX
                      have e1 : hexVal 48 = some 0 := rfl
                      have e2 : hexVal (hexDigit (c / 16)) = some (c / 16) :=
                        hexVal_hexDigit _ (by omega)
                      have e3 : hexVal (hexDigit (c % 16)) = some (c % 16) :=
                        hexVal_hexDigit _ (by omega)
                      show parseStrChars (f + 1)
                        (92 :: 117 :: 48 :: 48 :: hexDigit (c / 16) :: hexDigit (c % 16) :: _) = _
                      simp [parseStrChars, readEscape, e1, e2, e3, hih]
                      omega
                    · have hesc : escapeChar c = [c] := by
                        rw [escapeChar, if_neg h34, if_neg h92, if_neg h8, if_neg h9,
                          if_neg h10, if_neg h12, if_neg h13, if_neg h32]
                      rw [hesc] at hlen ⊢
                      have hX : ((t.map escapeChar).flatten ++ (34 :: rest)).length ≤ f := by
                        simp only [List.length_append, List.length_cons, List.length_nil] at hlen ⊢
                        omega
                      have hih := ih f rest hX
                      show parseStrChars (f + 1) (c :: _) = _
                      simp [parseStrChars, h34, h92, h32, hih]

theorem natDigits_head (n : Nat) :
    ∃ d ds, natDigits n = d :: ds ∧ 48 ≤ d ∧ d ≤ 57 := by
  have hne := natDigitsAux_ne_nil (n + 1) n (by omega)
  have hdig := natDigitsAux_digits (n + 1) n
  unfold natDigits
  cases hx : natDigitsAux (n + 1) n with
  | nil => exact absurd hx hne
  | cons d ds =>
    have := hdig d (by rw [hx]; simp)
    exact ⟨d, ds, rfl, this.1, this.2⟩

theorem stringify_head (j : Json) :
    ∃ c cs, stringify j = c :: cs ∧ isWs c = false ∧ c ≠ 93 ∧ c ≠ 125 := by
  cases j with
  | nul => exact ⟨110, [117, 108, 108], by simp [stringify], rfl, by omega, by omega⟩
  | bool b =>
    cases b with
    | true => exact ⟨116, [114, 117, 101], by simp [stringify], rfl, by omega, by omega⟩
    | false => exact ⟨102, [97, 108, 115, 101], by simp [stringify], rfl, by omega, by omega⟩
  | num i =>
    by_cases hneg : i < 0
    · exact ⟨45, natDigits i.natAbs, by simp [stringify, intDigits, hneg], rfl,
        by omega, by omega⟩
    · obtain ⟨d, ds, hd, h1, h2⟩ := natDigits_head i.natAbs
      refine ⟨d, ds, ?_, ?_, by omega, by omega⟩
      · simp [stringify, intDigits, hneg, hd]
      · simp [isWs]
        omega
  | str s => exact ⟨34, (s.map escapeChar).flatten ++ [34], by simp [stringify, quoteStr],
      rfl, by omega, by omega⟩
  | arr xs => exact ⟨91, stringifyItems xs ++ [93], by simp [stringify], rfl,
      by omega, by omega⟩
  | obj fs => exact ⟨123, stringifyMembers fs ++ [125], by simp [stringify], rfl,
      by omega, by omega⟩

theorem skipWs_not_ws (c : Nat) (l : List Nat) (h : isWs c = false) :
    skipWs (c :: l) = c :: l := by
  unfold skipWs
  simp [h]

theorem parseVal_stringify_aux : ∀ (n : Nat) (j : Json), sizeOf j ≤ n →
    ∀ (fuel : Nat) (rest : List Nat), jsonFuel j ≤ fuel → headNotDigit rest = true →
    parseVal fuel (stringify j ++ rest) = some (j, rest) := by
  intro n
  induction n using Nat.strong_induction_on with
  | _ n ih =>
    intro j hsize fuel rest hfuel hrest
    have hf1 : 1 ≤ jsonFuel j := jsonFuel_pos j
    cases fuel with
    | zero => omega
    | succ f =>
      cases j with
      | nul =>
        have hs : stringify Json.nul = [110, 117, 108, 108] := by simp [stringify]
        rw [hs]
        simp [parseVal, skipWs, isWs]
      | bool b =>
        cases b with
        | true =>
          have hs : stringify (Json.bool true) = [116, 114, 117, 101] := by simp [stringify]
          rw [hs]
          simp [parseVal, skipWs, isWs]
        | false =>
          have hs : stringify (Json.bool false) = [102, 97, 108, 115, 101] := by
            simp [stringify]
          rw [hs]
          simp [parseVal, skipWs, isWs]
      | num i =>
        by_cases hneg : i < 0
        · have hs : stringify (Json.num i) = 45 :: natDigits i.natAbs := by
            simp [stringify, intDigits, hneg]
          rw [hs]
          have hnum := parseNum_natDigits i.natAbs rest hrest
          simp [parseVal, skipWs, isWs, hnum, abs_of_neg hneg]
        · have hs : stringify (Json.num i) = natDigits i.natAbs := by
            simp [stringify, intDigits, hneg]
          obtain ⟨d, ds, hd, h48, h57⟩ := natDigits_head i.natAbs
          rw [hs, hd]
          have hnum := parseNum_natDigits i.natAbs rest hrest
          rw [hd, List.cons_append] at hnum
          have hnotws : isWs d = false := by simp [isWs]; omega
          have hdig : isDigitCode d = true := by simp [isDigitCode]; omega
          have hval : ((i.natAbs : Nat) : Int) = i := by omega
          simp only [List.cons_append, parseVal, skipWs_not_ws d _ hnotws]
          simp [show d ≠ 110 by omega, show d ≠ 116 by omega, show d ≠ 102 by omega,
            show d ≠ 34 by omega, show d ≠ 45 by omega, hdig, hnum, hval]
      | str s =>
        have hs : stringify (Json.str s) = 34 :: ((s.map escapeChar).flatten ++ [34]) := by
          simp [stringify, quoteStr]
        rw [hs]
        have hrw : (((s.map escapeChar).flatten ++ [34]) ++ rest)
            = (s.map escapeChar).flatten ++ (34 :: rest) := by
          simp
        have hstr := parseStrChars_quoted s
          (((s.map escapeChar).flatten ++ (34 :: rest)).length + 1) rest (by omega)
        simp only [List.cons_append, hrw]
        generalize hX : (s.map escapeChar).flatten ++ (34 :: rest) = X at hstr ⊢
        simp [parseVal, skipWs, isWs, hstr]
      | arr xs =>
        cases xs with
        | nil =>
          have hs : stringify (Json.arr []) = [91, 93] := by
            simp [stringify, stringifyItems]
          rw [hs]
          simp [parseVal, skipWs, isWs, isDigitCode]
        | cons x t =>
          have hsizex : sizeOf x < n := by
            have : sizeOf x < sizeOf (Json.arr (x :: t)) := by
              simp
              omega
            omega
          have hfx : jsonFuel x ≤ f := by
            have : jsonFuel (Json.arr (x :: t)) = 1 + (jsonFuel x + 1 + listFuel t) := by
              simp [jsonFuel, listFuel]
            omega
          obtain ⟨c0, cs0, hc0, hc0ws, hc0ne, _⟩ := stringify_head x
          cases t with
          | nil =>
            have hs : stringify (Json.arr [x]) = 91 :: (stringify x ++ [93]) := by
              simp [stringify, stringifyItems]
            rw [hs]
            have hrw : ((stringify x ++ [93]) ++ rest)
                = stringify x ++ (93 :: rest) := by simp
            simp only [List.cons_append, hrw]
            have helem := ih (sizeOf x) hsizex x (le_refl _) f (93 :: rest) hfx (by rfl)
            rw [hc0, List.cons_append] at helem
            rw [hc0, List.cons_append]
            have hws := hc0ws
            simp only [isWs, Bool.or_eq_false_iff, beq_eq_false_iff_ne, ne_eq] at hws
            have hc0ws2 : ¬(((c0 = 32 ∨ c0 = 9) ∨ c0 = 10) ∨ c0 = 13) := by omega
            simp [parseVal, skipWs, isWs, isDigitCode, hc0ws2, hc0ne, helem]
          | cons y t2 =>
            have hs : stringify (Json.arr (x :: y :: t2))
                = 91 :: (stringify x ++ (44 :: (stringifyItems (y :: t2) ++ [93]))) := by
              simp [stringify, stringifyItems]
            rw [hs]
            have hrw : ((stringify x ++ (44 :: (stringifyItems (y :: t2) ++ [93]))) ++ rest)
                = stringify x ++ (44 :: (stringifyItems (y :: t2) ++ (93 :: rest))) := by
              simp
            simp only [List.cons_append, hrw]
            have helem := ih (sizeOf x) hsizex x (le_refl _) f
              (44 :: (stringifyItems (y :: t2) ++ (93 :: rest))) hfx (by rfl)
            have hsizet : sizeOf (Json.arr (y :: t2)) < n := by
              have : sizeOf (Json.arr (y :: t2)) < sizeOf (Json.arr (x :: y :: t2)) := by
                simp
              omega
            have hft : jsonFuel (Json.arr (y :: t2)) ≤ f := by
              have h1 : jsonFuel (Json.arr (x :: y :: t2))
                  = 1 + (jsonFuel x + 1 + listFuel (y :: t2)) := by
                simp [jsonFuel, listFuel]
              have h2 : jsonFuel (Json.arr (y :: t2)) = 1 + listFuel (y :: t2) := by
                simp [jsonFuel]
              have h3 : 1 ≤ jsonFuel x := jsonFuel_pos x
              omega
            have hresta := ih (sizeOf (Json.arr (y :: t2))) hsizet (Json.arr (y :: t2))
              (le_refl _) f rest hft hrest
            have hstr2 : stringify (Json.arr (y :: t2)) ++ rest
                = 91 :: (stringifyItems (y :: t2) ++ (93 :: rest)) := by
              simp [stringify]
            rw [hstr2] at hresta
            rw [hc0, List.cons_append] at helem
            rw [hc0, List.cons_append]
            have hws := hc0ws
            simp only [isWs, Bool.or_eq_false_iff, beq_eq_false_iff_ne, ne_eq] at hws
            have hc0ws2 : ¬(((c0 = 32 ∨ c0 = 9) ∨ c0 = 10) ∨ c0 = 13) := by omega
            simp [parseVal, skipWs, isWs, isDigitCode, hc0ws2, hc0ne, helem, hresta]
      | obj fs =>
        cases fs with
        | nil =>
          have hs : stringify (Json.obj []) = [123, 125] := by
            simp [stringify, stringifyMembers]
          rw [hs]
          simp [parseVal, skipWs, isWs, isDigitCode]
        | cons kv t =>
          obtain ⟨k, v⟩ := kv
          have hsizev : sizeOf v < n := by
            have : sizeOf v < sizeOf (Json.obj ((k, v) :: t)) := by
              simp
              omega
            omega
          have hfv : jsonFuel v ≤ f := by
            have : jsonFuel (Json.obj ((k, v) :: t))
                = 1 + (jsonFuel v + 1 + membersFuel t) := by
              simp [jsonFuel, membersFuel]
            omega
          cases t with
          | nil =>
            have hs : stringify (Json.obj [(k, v)])
                = 123 :: ((quoteStr k ++ (58 :: stringify v)) ++ [125]) := by
              simp [stringify, stringifyMembers]
            rw [hs]
            have hrw : (((quoteStr k ++ (58 :: stringify v)) ++ [125]) ++ rest)
                = 34 :: ((k.map escapeChar).flatten
                  ++ (34 :: (58 :: (stringify v ++ (125 :: rest))))) := by
              simp [quoteStr]
            simp only [List.cons_append, hrw]
            have hkey := parseStrChars_quoted k
              (((k.map escapeChar).flatten
                ++ (34 :: (58 :: (stringify v ++ (125 :: rest))))).length + 1)
              (58 :: (stringify v ++ (125 :: rest))) (by omega)
            have helem := ih (sizeOf v) hsizev v (le_refl _) f (125 :: rest) hfv (by rfl)
            generalize hK : (k.map escapeChar).flatten
              ++ (34 :: (58 :: (stringify v ++ (125 :: rest)))) = K at hkey ⊢
            simp [parseVal, skipWs, isWs, isDigitCode, hkey, helem]
          | cons kv2 t2 =>
            have hs : stringify (Json.obj ((k, v) :: kv2 :: t2))
                = 123 :: ((quoteStr k ++ (58 :: (stringify v
                  ++ (44 :: stringifyMembers (kv2 :: t2))))) ++ [125]) := by
              simp [stringify, stringifyMembers]
            rw [hs]
            have hrw : (((quoteStr k ++ (58 :: (stringify v
                ++ (44 :: stringifyMembers (kv2 :: t2))))) ++ [125]) ++ rest)
                = 34 :: ((k.map escapeChar).flatten ++ (34 :: (58 :: (stringify v
                  ++ (44 :: (stringifyMembers (kv2 :: t2) ++ (125 :: rest))))))) := by
              simp [quoteStr]
            simp only [List.cons_append, hrw]
            have hkey := parseStrChars_quoted k
              (((k.map escapeChar).flatten ++ (34 :: (58 :: (stringify v
                ++ (44 :: (stringifyMembers (kv2 :: t2) ++ (125 :: rest))))))).length + 1)
              (58 :: (stringify v ++ (44 :: (stringifyMembers (kv2 :: t2)
                ++ (125 :: rest))))) (by omega)
            have helem := ih (sizeOf v) hsizev v (le_refl _) f
              (44 :: (stringifyMembers (kv2 :: t2) ++ (125 :: rest))) hfv (by rfl)
            have hsizet : sizeOf (Json.obj (kv2 :: t2)) < n := by
              have : sizeOf (Json.obj (kv2 :: t2))
                  < sizeOf (Json.obj ((k, v) :: kv2 :: t2)) := by
                simp
              omega
            have hft : jsonFuel (Json.obj (kv2 :: t2)) ≤ f := by
              have h1 : jsonFuel (Json.obj ((k, v) :: kv2 :: t2))
                  = 1 + (jsonFuel v + 1 + membersFuel (kv2 :: t2)) := by
                simp [jsonFuel, membersFuel]
              have h2 : jsonFuel (Json.obj (kv2 :: t2)) = 1 + membersFuel (kv2 :: t2) := by
                simp [jsonFuel]
              have h3 : 1 ≤ jsonFuel v := jsonFuel_pos v
              omega
            have hresto := ih (sizeOf (Json.obj (kv2 :: t2))) hsizet (Json.obj (kv2 :: t2))
              (le_refl _) f rest hft hrest
            have hstr2 : stringify (Json.obj (kv2 :: t2)) ++ rest
                = 123 :: (stringifyMembers (kv2 :: t2) ++ (125 :: rest)) := by
              simp [stringify]
            rw [hstr2] at hresto
            generalize hK : (k.map escapeChar).flatten ++ (34 :: (58 :: (stringify v
              ++ (44 :: (stringifyMembers (kv2 :: t2) ++ (125 :: rest)))))) = K at hkey ⊢
            simp [parseVal, skipWs, isWs, isDigitCode, hkey, helem, hresto]

theorem jsonFuel_le_len : ∀ (n : Nat) (j : Json), sizeOf j ≤ n →
    jsonFuel j ≤ (stringify j).length := by
  intro n
  induction n using Nat.strong_induction_on with
  | _ n ih =>
    intro j hsize
    cases j with
    | nul => simp [jsonFuel, stringify]
    | bool b => cases b <;> simp [jsonFuel, stringify]
    | num i =>
      have h1 : natDigits i.natAbs ≠ [] := natDigitsAux_ne_nil _ _ (by omega)
      have h2 : 1 ≤ (natDigits i.natAbs).length := by
        cases hx : natDigits i.natAbs with
        | nil => exact absurd hx h1
        | cons a t => simp
      by_cases hneg : i < 0
      · simp [jsonFuel, stringify, intDigits, hneg]
      · simp [jsonFuel, stringify, intDigits, hneg]
        omega
    | str s => simp [jsonFuel, stringify, quoteStr]
    | arr xs =>
      have helems : ∀ y ∈ xs, jsonFuel y ≤ (stringify y).length := by
        intro y hy
        have hlt : sizeOf y < sizeOf (Json.arr xs) := by
          have := List.sizeOf_lt_of_mem hy
          simp
          omega
        exact ih (sizeOf y) (by omega) y (le_refl _)
      have hB : ∀ ys : List Json, (∀ y ∈ ys, jsonFuel y ≤ (stringify y).length) →
          listFuel ys ≤ (stringifyItems ys).length + 1 := by
        intro ys
        induction ys with
        | nil => intro _; simp [listFuel, stringifyItems]
        | cons a t iht =>
          intro hy
          cases t with
          | nil =>
            have := hy a (by simp)
            simp [listFuel, stringifyItems]
            omega
          | cons b t2 =>
            have h1 := hy a (by simp)
            have h2 := iht (fun y hmem => hy y (by simp [hmem]))
            have hlen : (stringifyItems (a :: b :: t2)).length
                = (stringify a).length + 1 + (stringifyItems (b :: t2)).length := by
              have : stringifyItems (a :: b :: t2)
                  = stringify a ++ 44 :: stringifyItems (b :: t2) := by
                simp [stringifyItems]
              rw [this]
              simp
              omega
            have hlf : listFuel (a :: b :: t2)
                = jsonFuel a + 1 + listFuel (b :: t2) := by
              simp [listFuel]
            omega
      have hx := hB xs helems
      have hs : (stringify (Json.arr xs)).length = (stringifyItems xs).length + 2 := by
        have : stringify (Json.arr xs) = 91 :: (stringifyItems xs ++ [93]) := by
          simp [stringify]
        rw [this]
        simp
      have hjf : jsonFuel (Json.arr xs) = 1 + listFuel xs := by simp [jsonFuel]
      omega
    | obj fs =>
      have helems : ∀ kv ∈ fs, jsonFuel kv.2 ≤ (stringify kv.2).length := by
        intro kv hkv
        have hlt : sizeOf kv.2 < sizeOf (Json.obj fs) := by
          have h1 := List.sizeOf_lt_of_mem hkv
          obtain ⟨k, v⟩ := kv
          simp at h1 ⊢
          omega
        exact ih (sizeOf kv.2) (by omega) kv.2 (le_refl _)
      have hC : ∀ ys : List (List Nat × Json),
          (∀ kv ∈ ys, jsonFuel kv.2 ≤ (stringify kv.2).length) →
          membersFuel ys ≤ (stringifyMembers ys).length + 1 := by
        intro ys
        induction ys with
        | nil => intro _; simp [membersFuel, stringifyMembers]
        | cons a t iht =>
          intro hy
          obtain ⟨k, v⟩ := a
          cases t with
          | nil =>
            have := hy (k, v) (by simp)
            have hlen : (stringifyMembers [(k, v)]).length
                = (quoteStr k).length + 1 + (stringify v).length := by
              have : stringifyMembers [(k, v)] = quoteStr k ++ 58 :: stringify v := by
                simp [stringifyMembers]
              rw [this]
              simp
              omega
            have hmf : membersFuel [(k, v)] = jsonFuel v + 1 + 0 := by
              simp [membersFuel]
            simp at this
            omega
          | cons b t2 =>
            have h1 := hy (k, v) (by simp)
            have h2 := iht (fun y hmem => hy y (by simp [hmem]))
            have hlen : (stringifyMembers ((k, v) :: b :: t2)).length
                = (quoteStr k).length + 1 + (stringify v).length + 1
                  + (stringifyMembers (b :: t2)).length := by
              have : stringifyMembers ((k, v) :: b :: t2)
                  = quoteStr k ++ 58 :: stringify v ++ 44 :: stringifyMembers (b :: t2) := by
                simp [stringifyMembers]
              rw [this]
              simp
              omega
            have hmf : membersFuel ((k, v) :: b :: t2)
                = jsonFuel v + 1 + membersFuel (b :: t2) := by
              simp [membersFuel]
            simp at h1
            omega
      have hx := hC fs helems
      have hs : (stringify (Json.obj fs)).length = (stringifyMembers fs).length + 2 := by
        have : stringify (Json.obj fs) = 123 :: (stringifyMembers fs ++ [125]) := by
          simp [stringify]
        rw [this]
        simp
      have hjf : jsonFuel (Json.obj fs) = 1 + membersFuel fs := by simp [jsonFuel]
      omega

/-- The serializer/parser roundtrip: `JSON.parse` recovers every serialized
value exactly. -/
theorem jsonParse_stringify (j : Json) : jsonParse (stringify j) = some j := by
  have hfuel : jsonFuel j ≤ (stringify j).length + 1 := by
    have := jsonFuel_le_len (sizeOf j) j (le_refl _)
    omega
  have h1 := parseVal_stringify_aux (sizeOf j) j (le_refl _)
    ((stringify j).length + 1) [] hfuel rfl
  rw [List.append_nil] at h1
  unfold jsonParse
  rw [h1]
  rfl

/-- Counterexample for C8: the falsy JSON value `false` does not roundtrip —
`obj || {}` replaces it by the empty object, so the browser decodes `{}`. -/
theorem obj2dataAttribute_falsy_counterexample :
    postcodeDecode (obj2dataAttribute (Json.bool false)) = some (Json.obj [])
    ∧ Json.obj [] ≠ Json.bool false := by
  constructor
  · have h1 : stringify (Json.obj []) = [123, 125] := by
      simp [stringify, stringifyMembers]
    show postcodeDecode (uriEncode (stringify (Json.obj []))) = _
    rw [h1]
    rfl
  · intro h
    exact Json.noConfusion h

/-- Claim C8 (amended): for truthy values whose serialized text consists of
representable code points (true of every JavaScript string), the browser-side
`JSON.parse(decodeURIComponent(...))` reconstructs exactly the value the
server encoded; every falsy value (`undefined`, `null`, `false`, `0`, the
empty string) is replaced by the empty object. -/
theorem obj2dataAttribute_roundtrip (j : Json) :
    (jsFalsy j = false → wfText (stringify j) = true →
      postcodeDecode (obj2dataAttribute j) = some j)
    ∧ (jsFalsy j = true → postcodeDecode (obj2dataAttribute j) = some (Json.obj [])) := by
  constructor
  · intro hfal hwf
    unfold obj2dataAttribute postcodeDecode
    rw [if_neg (by simp [hfal])]
    rw [uriDecode_uriEncode _ hwf]
    show jsonParse (stringify j) = some j
    exact jsonParse_stringify j
  · intro htru
    unfold obj2dataAttribute postcodeDecode
    rw [if_pos htru]
    have h1 : stringify (Json.obj []) = [123, 125] := by
      simp [stringify, stringifyMembers]
    rw [h1]
    rfl

/-- A sample truthy record (`{"k": 42}`). -/
def jsonSample : Json := Json.obj [([107], Json.num 42)]

/-- Witness for C8's amended claim: the sample record roundtrips exactly. -/
theorem obj2dataAttribute_roundtrip_witness :
    jsFalsy jsonSample = false
    ∧ wfText (stringify jsonSample) = true
    ∧ postcodeDecode (obj2dataAttribute jsonSample) = some jsonSample := by
  have hstr : stringify jsonSample = [123, 34, 107, 34, 58, 52, 50, 125] := by
    norm_num [jsonSample, stringify, stringifyMembers, quoteStr, escapeChar,
      intDigits, natDigits, natDigitsAux]
  have hwf : wfText (stringify jsonSample) = true := by
    rw [hstr]
    rfl
  exact ⟨rfl, hwf, (obj2dataAttribute_roundtrip jsonSample).1 rfl hwf⟩


/-- Orientation determinant of the triple `(o, a, b)`, positive when the turn
`o → a → b` is counterclockwise (longitude as x, latitude as y). -/
def cross (o a b : Pt) : ℚ :=
  (a.lon - o.lon) * (b.lat - o.lat) - (a.lat - o.lat) * (b.lon - o.lon)

/-- Strict lexicographic order on points: longitude first, then latitude. -/
def lexLt (a b : Pt) : Prop :=
  a.lon < b.lon ∨ (a.lon = b.lon ∧ a.lat < b.lat)

/-- Reflexive lexicographic order on points. -/
def lexLe (a b : Pt) : Prop := lexLt a b ∨ a = b

instance : DecidableRel lexLt := fun a b => by unfold lexLt; infer_instance

instance : DecidableRel lexLe := fun a b => by unfold lexLe; infer_instance

theorem pt_ext (a b : Pt) (h1 : a.lat = b.lat) (h2 : a.lon = b.lon) : a = b := by
  cases a; cases b; simp_all

theorem lexLt_lon_le {a b : Pt} (h : lexLt a b) : a.lon ≤ b.lon := by
  rcases h with h | ⟨h1, _⟩
  · exact le_of_lt h
  · exact le_of_eq h1

theorem lexLe_lon_le {a b : Pt} (h : lexLe a b) : a.lon ≤ b.lon := by
  rcases h with h | rfl
  · exact lexLt_lon_le h
  · exact le_refl _

theorem lexLt_irrefl (a : Pt) : ¬ lexLt a a := by
  rintro (h | ⟨_, h⟩) <;> exact lt_irrefl _ h

theorem lexLt_trans {a b c : Pt} (h1 : lexLt a b) (h2 : lexLt b c) : lexLt a c := by
  rcases h1 with h1 | ⟨h1, h1'⟩ <;> rcases h2 with h2 | ⟨h2, h2'⟩
  · exact Or.inl (lt_trans h1 h2)
  · exact Or.inl (h2 ▸ h1)
  · exact Or.inl (h1 ▸ h2)
  · exact Or.inr ⟨h1.trans h2, lt_trans h1' h2'⟩

theorem lexLt_asymm {a b : Pt} (h1 : lexLt a b) : ¬ lexLt b a := fun h2 =>
  lexLt_irrefl a (lexLt_trans h1 h2)

theorem lexLt_trichotomy (a b : Pt) : lexLt a b ∨ a = b ∨ lexLt b a := by
  rcases lt_trichotomy a.lon b.lon with h | h | h
  · exact Or.inl (Or.inl h)
  · rcases lt_trichotomy a.lat b.lat with h' | h' | h'
    · exact Or.inl (Or.inr ⟨h, h'⟩)
    · exact Or.inr (Or.inl (pt_ext a b h' h))
    · exact Or.inr (Or.inr (Or.inr ⟨h.symm, h'⟩))
  · exact Or.inr (Or.inr (Or.inl h))

theorem lexLe_refl (a : Pt) : lexLe a a := Or.inr rfl

theorem lexLe_total (a b : Pt) : lexLe a b ∨ lexLe b a := by
  rcases lexLt_trichotomy a b with h | h | h
  · exact Or.inl (Or.inl h)
  · exact Or.inl (Or.inr h)
  · exact Or.inr (Or.inl h)

theorem lexLe_trans {a b c : Pt} (h1 : lexLe a b) (h2 : lexLe b c) : lexLe a c := by
  rcases h1 with h1 | rfl
  · rcases h2 with h2 | rfl
    · exact Or.inl (lexLt_trans h1 h2)
    · exact Or.inl h1
  · exact h2

theorem lexLe_antisymm {a b : Pt} (h1 : lexLe a b) (h2 : lexLe b a) : a = b := by
  rcases h1 with h1 | rfl
  · rcases h2 with h2 | rfl
    · exact absurd h2 (lexLt_asymm h1)
    · rfl
  · rfl

theorem lexLt_of_not_lexLe {a b : Pt} (h : ¬ lexLe b a) : lexLt a b := by
  rcases lexLt_trichotomy a b with h' | rfl | h'
  · exact h'
  · exact absurd (lexLe_refl a) h
  · exact absurd (Or.inl h') h

theorem lexLt_of_lexLe_ne {a b : Pt} (h1 : lexLe a b) (h2 : a ≠ b) : lexLt a b := by
  rcases h1 with h1 | rfl
  · exact h1
  · exact absurd rfl h2

instance : IsTotal Pt lexLe := ⟨lexLe_total⟩

instance : IsTrans Pt lexLe := ⟨fun _ _ _ => lexLe_trans⟩

theorem cross_self_right (a p : Pt) : cross a p a = 0 := by unfold cross; ring

/-- Left turns compose down a lexicographically increasing chain: if `u → v → w`
and `v → w → p` turn left, so does `u → v → p`. -/
theorem leftTurn_extend {u v w p : Pt}
    (huv : lexLt u v) (hvw : lexLt v w) (hwp : lexLt w p)
    (h1 : 0 < cross u v w) (h2 : 0 < cross v w p) : 0 < cross u v p := by
  have hwp' : w.lon ≤ p.lon := lexLt_lon_le hwp
  rcases huv with huv | ⟨huv, huv2⟩
  · rcases hvw with hvw | ⟨hvw, hvw2⟩
    · have key : cross u v p * (w.lon - v.lon)
          = cross u v w * (p.lon - v.lon) + cross v w p * (v.lon - u.lon) := by
        unfold cross; ring
      by_contra hneg
      push_neg at hneg
      have hm : cross u v p * (w.lon - v.lon) ≤ 0 :=
        mul_nonpos_of_nonpos_of_nonneg hneg (by linarith)
      have p1 : 0 < cross u v w * (p.lon - v.lon) := mul_pos h1 (by linarith)
      have p2 : 0 < cross v w p * (v.lon - u.lon) := mul_pos h2 (by linarith)
      linarith
    · exfalso
      have hc : cross v w p = -((w.lat - v.lat) * (p.lon - v.lon)) := by
        unfold cross; rw [← hvw]; ring
      have : 0 ≤ (w.lat - v.lat) * (p.lon - v.lon) :=
        mul_nonneg (by linarith) (by rw [hvw]; linarith)
      rw [hc] at h2; linarith
  · exfalso
    have hvw' : v.lon ≤ w.lon := lexLt_lon_le hvw
    have hc : cross u v w = -((v.lat - u.lat) * (w.lon - u.lon)) := by
      unfold cross; rw [← huv]; ring
    have : 0 ≤ (v.lat - u.lat) * (w.lon - u.lon) :=
      mul_nonneg (by linarith) (by rw [huv]; linarith)
    rw [hc] at h1; linarith

/-- A point left of or on the supporting edge `(b, a)` and lexicographically
at most `a` stays left of the new edge `(a, p)` pushed above that edge. -/
theorem hull_push_above {b a p q : Pt}
    (hba : lexLt b a) (hap : lexLt a p) (hqa : lexLe q a)
    (h1 : 0 < cross b a p) (h2 : 0 ≤ cross b a q) : 0 ≤ cross a p q := by
  have hq : q.lon ≤ a.lon := lexLe_lon_le hqa
  rcases hba with hba | ⟨hba, hba2⟩
  · rcases hap with hap | ⟨hap, hap2⟩
    · have key : cross a p q * (a.lon - b.lon)
          = cross b a p * (a.lon - q.lon) + cross b a q * (p.lon - a.lon) := by
        unfold cross; ring
      by_contra hneg
      push_neg at hneg
      have hm : cross a p q * (a.lon - b.lon) < 0 :=
        mul_neg_of_neg_of_pos hneg (by linarith)
      have p1 : 0 ≤ cross b a p * (a.lon - q.lon) := mul_nonneg (le_of_lt h1) (by linarith)
      have p2 : 0 ≤ cross b a q * (p.lon - a.lon) := mul_nonneg h2 (by linarith)
      linarith
    · have hc : cross a p q = (p.lat - a.lat) * (a.lon - q.lon) := by
        unfold cross; rw [← hap]; ring
      rw [hc]
      exact mul_nonneg (by linarith) (by linarith)
  · exfalso
    have hap' : a.lon ≤ p.lon := lexLt_lon_le hap
    have hc : cross b a p = -((a.lat - b.lat) * (p.lon - b.lon)) := by
      unfold cross; rw [← hba]; ring
    have : 0 ≤ (a.lat - b.lat) * (p.lon - b.lon) :=
      mul_nonneg (by linarith) (by rw [hba]; linarith)
    rw [hc] at h1; linarith

/-- A point left of or on the removed edge `(a, c)` and lexicographically at
least `a` stays left of the replacement edge `(a, p)` when `p` is on or below
the removed edge. -/
theorem hull_pop_above {a c p q : Pt}
    (hac : lexLt a c) (hcp : lexLt c p) (haq : lexLe a q)
    (h1 : cross a c p ≤ 0) (h2 : 0 ≤ cross a c q) : 0 ≤ cross a p q := by
  have hq : a.lon ≤ q.lon := lexLe_lon_le haq
  have hcp' : c.lon ≤ p.lon := lexLt_lon_le hcp
  rcases hac with hac | ⟨hac, hac2⟩
  · have key : cross a p q * (c.lon - a.lon)
        = cross a c q * (p.lon - a.lon) - cross a c p * (q.lon - a.lon) := by
      unfold cross; ring
    by_contra hneg
    push_neg at hneg
    have hm : cross a p q * (c.lon - a.lon) < 0 :=
      mul_neg_of_neg_of_pos hneg (by linarith)
    have p1 : 0 ≤ cross a c q * (p.lon - a.lon) := mul_nonneg h2 (by linarith)
    have p2 : cross a c p * (q.lon - a.lon) ≤ 0 :=
      mul_nonpos_of_nonpos_of_nonneg h1 (by linarith)
    linarith
  · have h2' : cross a c q = -((c.lat - a.lat) * (q.lon - a.lon)) := by
      unfold cross; rw [← hac]; ring
    have hX1 : (c.lat - a.lat) * (q.lon - a.lon) ≤ 0 := by rw [h2'] at h2; linarith
    have hX2 : 0 ≤ (c.lat - a.lat) * (q.lon - a.lon) :=
      mul_nonneg (by linarith) (by linarith)
    have hX0 : (c.lat - a.lat) * (q.lon - a.lon) = 0 := le_antisymm hX1 hX2
    have hql : q.lon = a.lon := by
      rcases mul_eq_zero.mp hX0 with h | h
      · exfalso; linarith
      · linarith
    have hqlat : a.lat ≤ q.lat := by
      rcases haq with haq | rfl
      · rcases haq with h | ⟨_, h⟩
        · exfalso; linarith
        · linarith
      · exact le_refl _
    have hc : cross a p q = (p.lon - a.lon) * (q.lat - a.lat) := by
      unfold cross; rw [hql]; ring
    rw [hc]
    exact mul_nonneg (by linarith) (by linarith)

/-- Monotone-chain pop loop: repeatedly drop the stack top while the turn from
the edge below it to the incoming point `p` is clockwise or straight. -/
def popChain (p : Pt) : List Pt → List Pt
  | a :: b :: rest => if cross b a p ≤ 0 then popChain p (b :: rest) else a :: b :: rest
  | st => st

/-- One step of the monotone chain: pop, then push the incoming point. -/
def lowerStep (st : List Pt) (p : Pt) : List Pt := p :: popChain p st

/-- The half-hull of a point list, as a stack (most recent point first). -/
def lowerChain (s : List Pt) : List Pt := s.foldl lowerStep []

/-- Convexity of a chain stack: every consecutive triple, read from the bottom
of the stack towards the top, turns left. -/
def TriConv : List Pt → Prop
  | a :: b :: c :: rest => 0 < cross c b a ∧ TriConv (b :: c :: rest)
  | _ => True

theorem triConv_tail : ∀ {l : List Pt}, TriConv l → TriConv l.tail
  | [], h => h
  | [_], _ => by simp [TriConv]
  | [_, _], _ => by simp [TriConv]
  | _ :: _ :: _ :: _, h => h.2

theorem triConv_append_right : ∀ (t l : List Pt), TriConv (t ++ l) → TriConv l
  | [], _, h => h
  | _ :: t, l, h => triConv_append_right t l (triConv_tail h)

theorem triConv_suffix {l₁ l₂ : List Pt} (h : l₁ <:+ l₂) (hc : TriConv l₂) : TriConv l₁ := by
  obtain ⟨t, rfl⟩ := h
  exact triConv_append_right t l₁ hc

theorem popChain_suffix (p : Pt) : ∀ st : List Pt, popChain p st <:+ st
  | [] => List.suffix_refl _
  | [_] => List.suffix_refl _
  | a :: b :: rest => by
    unfold popChain
    split
    · exact (popChain_suffix p (b :: rest)).trans (List.suffix_cons a (b :: rest))
    · exact List.suffix_refl _

theorem popChain_ne_nil (p : Pt) : ∀ st : List Pt, st ≠ [] → popChain p st ≠ []
  | [], h => absurd rfl h
  | [a], _ => by simp [popChain]
  | a :: b :: rest, _ => by
    unfold popChain
    split
    · exact popChain_ne_nil p (b :: rest) (by simp)
    · simp

theorem popChain_getLast (p : Pt) : ∀ st : List Pt, (popChain p st).getLast? = st.getLast?
  | [] => rfl
  | [_] => rfl
  | a :: b :: rest => by
    unfold popChain
    split
    · rw [popChain_getLast p (b :: rest), List.getLast?_cons_cons]
    · rfl

theorem edges_cons_subset (x : Pt) : ∀ (l : List Pt), ∀ e ∈ l.tail.zip l, e ∈ (x :: l).tail.zip (x :: l)
  | [], _, he => by simp at he
  | y :: m, e, he => List.mem_cons_of_mem (y, x) he

theorem edges_append_left_subset : ∀ (t l : List Pt), ∀ e ∈ l.tail.zip l, e ∈ (t ++ l).tail.zip (t ++ l)
  | [], _, _, he => he
  | x :: t, l, e, he => edges_cons_subset x (t ++ l) e (edges_append_left_subset t l e he)

theorem edges_suffix_subset {l₁ l₂ : List Pt} (h : l₁ <:+ l₂) :
    ∀ e ∈ l₁.tail.zip l₁, e ∈ l₂.tail.zip l₂ := by
  obtain ⟨t, rfl⟩ := h
  exact edges_append_left_subset t l₁

/-- Along a descending convex stack, once the top edge sees the incoming point
`p` strictly on its left, every edge of the stack does. -/
theorem chain_edges_left (p : Pt) :
    ∀ st : List Pt, st.Chain' (fun u v => lexLt v u) → TriConv st →
    (∀ x ∈ st, lexLt x p) →
    (∀ a b rest, st = a :: b :: rest → 0 < cross b a p) →
    ∀ e ∈ st.tail.zip st, 0 < cross e.1 e.2 p
  | [], _, _, _, _, e, he => by simp at he
  | [_], _, _, _, _, e, he => by simp at he
  | a :: b :: rest, hchain, hconv, hlt, htop, e, he => by
    rcases List.mem_cons.mp he with he | he
    · subst he
      exact htop a b rest rfl
    · refine chain_edges_left p (b :: rest) hchain.tail (triConv_tail hconv)
        (fun x hx => hlt x (List.mem_cons_of_mem a hx)) ?_ e he
      intro b' c' r' heq
      injection heq with h1 h2
      subst h1
      subst h2
      have hcb : lexLt c' b := (List.chain'_cons.mp hchain.tail).1
      have hba : lexLt b a := (List.chain'_cons.mp hchain).1
      have hap : lexLt a p := hlt a (by simp)
      have hconv1 : 0 < cross c' b a := hconv.1
      exact leftTurn_extend hcb hba hap hconv1 (htop a b (c' :: r') rfl)

/-- Specification of the pop loop: the surviving edges all see the incoming
point `p` strictly on their left, and every already-processed point is left of
or on the new edge running from the surviving top to `p`. -/
theorem popChain_spec (p : Pt) :
    ∀ (st P : List Pt),
    st ≠ [] →
    (∀ x ∈ st, x ∈ P) →
    st.Chain' (fun u v => lexLt v u) →
    TriConv st →
    (∀ q ∈ P, ∀ e ∈ st.tail.zip st, 0 ≤ cross e.1 e.2 q) →
    (∀ q ∈ P, lexLt q p) →
    (∀ q ∈ P, ∀ b, st.getLast? = some b → lexLe b q) →
    ((∀ q ∈ P, ∀ t, st.head? = some t → lexLe q t)
      ∨ (∀ t, st.head? = some t →
          ∃ c, lexLt t c ∧ lexLt c p ∧ cross t c p ≤ 0 ∧ ∀ q ∈ P, 0 ≤ cross t c q)) →
    (∀ e ∈ (popChain p st).tail.zip (popChain p st), 0 < cross e.1 e.2 p)
    ∧ (∀ q ∈ P, ∀ t, (popChain p st).head? = some t → 0 ≤ cross t p q)
  | [], _, hne, _, _, _, _, _, _, _ => absurd rfl hne
  | [a], P, _, _, _, _, _, _, hbot, hacc => by
    constructor
    · intro e he
      simp [popChain] at he
    · intro q hq t ht
      have ht' : t = a := by
        have : popChain p [a] = [a] := rfl
        rw [this] at ht
        simpa using ht.symm
      subst ht'
      by_cases hqa : lexLe q t
      · have haq : lexLe t q := hbot q hq t (by simp)
        have hqeq : q = t := lexLe_antisymm hqa haq
        subst hqeq
        rw [cross_self_right]
      · have haq : lexLt t q := lexLt_of_not_lexLe hqa
        rcases hacc with hacc | hacc
        · exact absurd (hacc q hq t rfl) hqa
        · obtain ⟨c, hc1, hc2, hc3, hc4⟩ := hacc t rfl
          exact hull_pop_above hc1 hc2 (Or.inl haq) hc3 (hc4 q hq)
  | a :: b :: rest, P, _, hsub, hchain, hconv, hleft, hlt, hbot, hacc => by
    by_cases hpop : cross b a p ≤ 0
    · have hpc : popChain p (a :: b :: rest) = popChain p (b :: rest) := by
        show (if cross b a p ≤ 0 then popChain p (b :: rest) else a :: b :: rest) = _
        rw [if_pos hpop]
      rw [hpc]
      refine popChain_spec p (b :: rest) P (by simp)
        (fun x hx => hsub x (List.mem_cons_of_mem a hx)) hchain.tail (triConv_tail hconv)
        ?_ hlt ?_ ?_
      · intro q hq e he
        exact hleft q hq e (edges_cons_subset a (b :: rest) e he)
      · intro q hq b' hb'
        refine hbot q hq b' ?_
        rw [List.getLast?_cons_cons]
        exact hb'
      · right
        intro t ht
        have ht' : t = b := by simpa using ht.symm
        subst ht'
        refine ⟨a, (List.chain'_cons.mp hchain).1, hlt a (hsub a (by simp)), hpop, ?_⟩
        intro q hq
        exact hleft q hq (t, a) (List.mem_cons_self _ _)
    · have hpc : popChain p (a :: b :: rest) = a :: b :: rest := by
        show (if cross b a p ≤ 0 then popChain p (b :: rest) else a :: b :: rest) = _
        rw [if_neg hpop]
      rw [hpc]
      have htop : 0 < cross b a p := not_le.mp hpop
      constructor
      · refine chain_edges_left p (a :: b :: rest) hchain hconv
          (fun x hx => hlt x (hsub x hx)) ?_
        intro a' b' r' heq
        injection heq with h1 h2
        injection h2 with h3 h4
        subst h1; subst h3; subst h4
        exact htop
      · intro q hq t ht
        have ht' : t = a := by simpa using ht.symm
        subst ht'
        by_cases hqa : lexLe q t
        · exact hull_push_above (List.chain'_cons.mp hchain).1 (hlt t (hsub t (by simp))) hqa
            htop (hleft q hq (b, t) (List.mem_cons_self _ _))
        · have haq : lexLt t q := lexLt_of_not_lexLe hqa
          rcases hacc with hacc | hacc
          · exact absurd (hacc q hq t rfl) hqa
          · obtain ⟨c, hc1, hc2, hc3, hc4⟩ := hacc t rfl
            exact hull_pop_above hc1 hc2 (Or.inl haq) hc3 (hc4 q hq)

/-- Invariant of the monotone-chain fold: `st` is the current stack (top
first), `P` the list of points processed so far. -/
structure Inv (P st : List Pt) : Prop where
  ne : st ≠ []
  sub : ∀ x ∈ st, x ∈ P
  desc : st.Chain' fun u v => lexLt v u
  conv : TriConv st
  edgesLeft : ∀ q ∈ P, ∀ e ∈ st.tail.zip st, 0 ≤ cross e.1 e.2 q
  topmax : ∀ q ∈ P, ∀ t, st.head? = some t → lexLe q t
  botmin : ∀ q ∈ P, ∀ b, st.getLast? = some b → lexLe b q
  bot : st.getLast? = P.head?

theorem step_inv (P : List Pt) (p : Pt) (st : List Pt)
    (hinv : Inv P st) (hlt : ∀ q ∈ P, lexLt q p) :
    Inv (P ++ [p]) (lowerStep st p) := by
  obtain ⟨hA, hB⟩ := popChain_spec p st P hinv.ne hinv.sub hinv.desc hinv.conv
    hinv.edgesLeft hlt hinv.botmin (Or.inl hinv.topmax)
  have hsuf := popChain_suffix p st
  have hne' := popChain_ne_nil p st hinv.ne
  have hsub' : ∀ x ∈ popChain p st, x ∈ P := fun x hx => hinv.sub x (hsuf.subset hx)
  have hPne : P ≠ [] := by
    cases hst : st with
    | nil => exact absurd hst hinv.ne
    | cons x t => exact List.ne_nil_of_mem (hinv.sub x (by rw [hst]; simp))
  refine ⟨by simp [lowerStep], ?_, ?_, ?_, ?_, ?_, ?_, ?_⟩
  · intro x hx
    rcases List.mem_cons.mp hx with rfl | hx
    · simp
    · exact List.mem_append_left [p] (hsub' x hx)
  · rw [lowerStep, List.chain'_cons']
    refine ⟨?_, hinv.desc.suffix hsuf⟩
    intro y hy
    exact hlt y (hsub' y (List.mem_of_mem_head? hy))
  · rw [lowerStep]
    cases hpc : popChain p st with
    | nil => exact absurd hpc hne'
    | cons a t =>
      cases t with
      | nil => simp [TriConv]
      | cons b t' =>
        refine ⟨?_, ?_⟩
        · exact hA (b, a) (by rw [hpc]; exact List.mem_cons_self _ _)
        · have := triConv_suffix hsuf hinv.conv
          rw [hpc] at this
          exact this
  · intro q hq e he
    rw [lowerStep] at he
    cases hpc : popChain p st with
    | nil => exact absurd hpc hne'
    | cons a t =>
      rw [hpc] at he
      have hE : (p :: a :: t).tail.zip (p :: a :: t) = (a, p) :: t.zip (a :: t) := rfl
      rw [hE] at he
      have hE2 : (a :: t).tail.zip (a :: t) = t.zip (a :: t) := rfl
      rcases List.mem_cons.mp he with rfl | he
      · rcases List.mem_append.mp hq with hq | hq
        · exact hB q hq a (by rw [hpc]; rfl)
        · have hqp : q = p := by simpa using hq
          show 0 ≤ cross a p q
          rw [hqp]
          have hz : cross a p p = 0 := by unfold cross; ring
          exact le_of_eq hz.symm
      · rcases List.mem_append.mp hq with hq | hq
        · refine hinv.edgesLeft q hq e (edges_suffix_subset hsuf e ?_)
          rw [hpc, hE2]
          exact he
        · have hqp : q = p := by simpa using hq
          rw [hqp]
          refine le_of_lt (hA e ?_)
          rw [hpc, hE2]
          exact he
  · intro q hq t ht
    have : t = p := by
      rw [lowerStep] at ht
      simpa using ht.symm
    subst this
    rcases List.mem_append.mp hq with hq | hq
    · exact Or.inl (hlt q hq)
    · have : q = t := by simpa using hq
      subst this
      exact lexLe_refl _
  · intro q hq b hb
    have hb' : st.getLast? = some b := by
      rw [lowerStep] at hb
      cases hpc : popChain p st with
      | nil => exact absurd hpc hne'
      | cons a t =>
        rw [hpc, List.getLast?_cons_cons] at hb
        rw [← popChain_getLast p st, hpc]
        exact hb
    rcases List.mem_append.mp hq with hq | hq
    · exact hinv.botmin q hq b hb'
    · have : q = p := by simpa using hq
      subst this
      exact Or.inl (hlt b (hinv.sub b (List.mem_of_getLast?_eq_some hb')))
  · have h1 : (lowerStep st p).getLast? = st.getLast? := by
      rw [lowerStep]
      cases hpc : popChain p st with
      | nil => exact absurd hpc hne'
      | cons a t =>
        rw [List.getLast?_cons_cons, ← popChain_getLast p st, hpc]
    rw [h1, hinv.bot]
    cases P with
    | nil => exact absurd rfl hPne
    | cons x t => rfl

theorem foldl_inv : ∀ (l P st : List Pt),
    Inv P st → List.Pairwise lexLt (P ++ l) → Inv (P ++ l) (l.foldl lowerStep st)
  | [], P, st, hinv, _ => by simpa using hinv
  | x :: l', P, st, hinv, hpw => by
    have hlt : ∀ q ∈ P, lexLt q x :=
      fun q hq => (List.pairwise_append.mp hpw).2.2 q hq x (List.mem_cons_self x l')
    have hstep := step_inv P x st hinv hlt
    have hpw' : List.Pairwise lexLt ((P ++ [x]) ++ l') := by
      rw [List.append_assoc]
      exact hpw
    have hres := foldl_inv l' (P ++ [x]) (lowerStep st x) hstep hpw'
    rw [List.append_assoc] at hres
    exact hres

theorem lowerChain_inv (s : List Pt) (hne : s ≠ []) (hsort : List.Pairwise lexLt s) :
    Inv s (lowerChain s) := by
  cases s with
  | nil => exact absurd rfl hne
  | cons x l' =>
    have h0 : Inv [x] [x] := by
      refine ⟨by simp, by simp, by simp, by simp [TriConv], by simp, ?_, ?_, rfl⟩
      · intro q hq t ht
        have h1 : q = x := by simpa using hq
        have h2 : t = x := by simpa using ht.symm
        subst h1; subst h2
        exact lexLe_refl _
      · intro q hq b hb
        have h1 : q = x := by simpa using hq
        have h2 : b = x := by simpa using hb.symm
        subst h1; subst h2
        exact lexLe_refl _
    have hres := foldl_inv l' [x] [x] h0 (by simpa using hsort)
    simpa [lowerChain] using hres

theorem foldl_lowerStep_head : ∀ (l : List Pt) (st : List Pt), l ≠ [] →
    (l.foldl lowerStep st).head? = l.getLast?
  | [], _, h => absurd rfl h
  | [x], st, _ => by simp [lowerStep]
  | x :: y :: l', st, _ => by
    have h1 := foldl_lowerStep_head (y :: l') (lowerStep st x) (by simp)
    rw [List.getLast?_cons_cons]
    exact h1

theorem foldl_lowerStep_last : ∀ (l st : List Pt), st ≠ [] →
    (l.foldl lowerStep st).getLast? = st.getLast?
  | [], _, _ => rfl
  | x :: l', st, h => by
    have h1 : lowerStep st x ≠ [] := by simp [lowerStep]
    have h2 := foldl_lowerStep_last l' (lowerStep st x) h1
    have h3 : (lowerStep st x).getLast? = st.getLast? := by
      rw [lowerStep]
      cases hpc : popChain x st with
      | nil => exact absurd hpc (popChain_ne_nil x st h)
      | cons a t =>
        rw [List.getLast?_cons_cons, ← popChain_getLast x st, hpc]
    rw [show (x :: l').foldl lowerStep st = l'.foldl lowerStep (lowerStep st x) from rfl]
    rw [h2, h3]

theorem lowerChain_head (l : List Pt) (h : l ≠ []) : (lowerChain l).head? = l.getLast? :=
  foldl_lowerStep_head l [] h

theorem lowerChain_last (l : List Pt) (h : l ≠ []) : (lowerChain l).getLast? = l.head? := by
  cases l with
  | nil => exact absurd rfl h
  | cons x l' =>
    have h1 : lowerChain (x :: l') = l'.foldl lowerStep [x] := rfl
    rw [h1, foldl_lowerStep_last l' [x] (by simp)]
    rfl

theorem foldl_lowerStep_length : ∀ (l st : List Pt), st ≠ [] → l ≠ [] →
    2 ≤ (l.foldl lowerStep st).length
  | [], _, _, h => absurd rfl h
  | [x], st, hst, _ => by
    show 2 ≤ (lowerStep st x).length
    rw [lowerStep]
    have h1 : 1 ≤ (popChain x st).length := List.length_pos.mpr (popChain_ne_nil x st hst)
    simp only [List.length_cons]
    omega
  | x :: y :: l', st, hst, _ =>
    foldl_lowerStep_length (y :: l') (lowerStep st x) (by simp [lowerStep]) (by simp)

/-- Point reflection through the origin; it reverses the lexicographic order
and preserves orientation, turning the upper half-hull into a lower one. -/
def negPt (a : Pt) : Pt := ⟨-a.lat, -a.lon⟩

theorem negPt_negPt (a : Pt) : negPt (negPt a) = a := by
  cases a
  simp [negPt]

theorem cross_negPt (o a b : Pt) : cross (negPt o) (negPt a) (negPt b) = cross o a b := by
  show (-a.lon - -o.lon) * (-b.lat - -o.lat) - (-a.lat - -o.lat) * (-b.lon - -o.lon) = _
  unfold cross
  ring

theorem lexLt_negPt (a b : Pt) : lexLt (negPt a) (negPt b) ↔ lexLt b a := by
  show (-a.lon < -b.lon ∨ (-a.lon = -b.lon ∧ -a.lat < -b.lat)) ↔ _
  unfold lexLt
  constructor
  · rintro (h | ⟨h1, h2⟩)
    · exact Or.inl (by linarith)
    · exact Or.inr ⟨by linarith, by linarith⟩
  · rintro (h | ⟨h1, h2⟩)
    · exact Or.inl (by linarith)
    · exact Or.inr ⟨by linarith, by linarith⟩

theorem popChain_negPt (p : Pt) : ∀ st : List Pt,
    popChain (negPt p) (st.map negPt) = (popChain p st).map negPt
  | [] => rfl
  | [_] => rfl
  | a :: b :: rest => by
    show (if cross (negPt b) (negPt a) (negPt p) ≤ 0
        then popChain (negPt p) (negPt b :: rest.map negPt)
        else negPt a :: negPt b :: rest.map negPt)
      = (popChain p (a :: b :: rest)).map negPt
    rw [cross_negPt]
    by_cases h : cross b a p ≤ 0
    · rw [if_pos h]
      rw [show popChain p (a :: b :: rest) = popChain p (b :: rest) from by
        show (if cross b a p ≤ 0 then popChain p (b :: rest) else a :: b :: rest) = _
        rw [if_pos h]]
      exact popChain_negPt p (b :: rest)
    · rw [if_neg h]
      rw [show popChain p (a :: b :: rest) = a :: b :: rest from by
        show (if cross b a p ≤ 0 then popChain p (b :: rest) else a :: b :: rest) = _
        rw [if_neg h]]
      rfl

theorem lowerStep_negPt (st : List Pt) (p : Pt) :
    lowerStep (st.map negPt) (negPt p) = (lowerStep st p).map negPt := by
  rw [lowerStep, lowerStep, popChain_negPt]
  rfl

theorem foldl_lowerStep_negPt : ∀ (l st : List Pt),
    (l.map negPt).foldl lowerStep (st.map negPt) = (l.foldl lowerStep st).map negPt
  | [], _ => rfl
  | x :: l', st => by
    show (l'.map negPt).foldl lowerStep (lowerStep (st.map negPt) (negPt x)) = _
    rw [lowerStep_negPt]
    exact foldl_lowerStep_negPt l' (lowerStep st x)

theorem lowerChain_negPt (l : List Pt) :
    lowerChain (l.map negPt) = (lowerChain l).map negPt := by
  have h := foldl_lowerStep_negPt l []
  rw [lowerChain, lowerChain]
  simpa using h

/-- Consecutive pairs of an appended list split into the left pairs, the right
pairs, and the junction pair. -/
theorem mem_consec_append_iff : ∀ (A B : List Pt) (x y : Pt),
    (x, y) ∈ (A ++ B).zip (A ++ B).tail ↔
      ((x, y) ∈ A.zip A.tail ∨ (x, y) ∈ B.zip B.tail
        ∨ (A.getLast? = some x ∧ B.head? = some y))
  | [], B, x, y => by simp
  | [a], B, x, y => by
    cases B with
    | nil => simp
    | cons b B' =>
      show (x, y) ∈ (a, b) :: (b :: B').zip B' ↔ _
      rw [List.mem_cons]
      show _ ↔ ((x, y) ∈ [a].zip [] ∨ _ ∨ _)
      simp only [List.zip_nil_right, List.not_mem_nil, false_or, Prod.mk.injEq,
        Option.some.injEq, List.head?_cons, List.getLast?_singleton, eq_comm]
      tauto
  | a :: a' :: A'', B, x, y => by
    rw [show ((a :: a' :: A'') ++ B).zip ((a :: a' :: A'') ++ B).tail
        = (a, a') :: ((a' :: A'') ++ B).zip (((a' :: A'') ++ B).tail) from rfl]
    rw [List.mem_cons, mem_consec_append_iff (a' :: A'') B x y]
    rw [show (a :: a' :: A'').zip (a :: a' :: A'').tail
        = (a, a') :: (a' :: A'').zip A'' from rfl]
    rw [List.getLast?_cons_cons, List.mem_cons]
    tauto

/-- Consecutive pairs of a reversed list are the swapped consecutive pairs. -/
theorem mem_consec_reverse : ∀ (l : List Pt) (x y : Pt),
    (x, y) ∈ l.reverse.zip l.reverse.tail ↔ (y, x) ∈ l.zip l.tail
  | [], x, y => by simp
  | a :: l', x, y => by
    rw [List.reverse_cons, mem_consec_append_iff l'.reverse [a] x y,
      mem_consec_reverse l' x y, List.getLast?_reverse]
    cases l' with
    | nil => simp
    | cons b l'' =>
      show _ ↔ (y, x) ∈ (a, b) :: (b :: l'').zip l''
      rw [List.mem_cons]
      simp [Prod.ext_iff, eq_comm]
      tauto

/-- Swapping the zip arguments swaps the pairs. -/
theorem mem_zip_swap (l₁ l₂ : List Pt) (x y : Pt) :
    (x, y) ∈ l₁.zip l₂ ↔ (y, x) ∈ l₂.zip l₁ := by
  rw [← List.zip_swap l₂ l₁, List.mem_map]
  constructor
  · rintro ⟨⟨u, v⟩, hm, he⟩
    obtain ⟨rfl, rfl⟩ : v = x ∧ u = y := by
      have h1 : (v, u) = (x, y) := he
      simpa [Prod.ext_iff] using h1
    exact hm
  · intro h
    exact ⟨(y, x), h, rfl⟩

theorem mem_consec_tail : ∀ (l : List Pt) (x y : Pt),
    (x, y) ∈ l.tail.zip l.tail.tail → (x, y) ∈ l.zip l.tail
  | [], _, _, h => h
  | [_], _, _, h => by simp at h
  | a :: b :: l'', x, y, h =>
    List.mem_cons_of_mem (a, b) h

/-- Modelled from the spec: the point set, deduplicated and sorted
lexicographically (longitude then latitude), ready for the monotone chain. -/
def sortedPts (pts : List Pt) : List Pt := List.insertionSort lexLe pts.dedup

/-- Modelled from the spec: the convex hull of the sorted point list as a
closed ring — lower chain, then upper chain, first vertex repeated at the
end. -/
def hullRing (s : List Pt) : List Pt :=
  (lowerChain s).reverse ++ ((lowerChain s.reverse).reverse).tail

/-- Modelled from the spec: whether the set contains three non-collinear
points. -/
def hasThreeNonCollinear (pts : List Pt) : Bool :=
  pts.any fun a => pts.any fun b => pts.any fun c => decide (cross a b c ≠ 0)

/-- Modelled from the spec: `computeBoundary(points) → Polygon | null` returns
null when fewer than 3 non-collinear points exist; otherwise the convex hull
of the point set as a closed ring. -/
def computeBoundary (pts : List Pt) : Option (List Pt) :=
  if hasThreeNonCollinear pts then some (hullRing (sortedPts pts)) else none

theorem sortedPts_pairwise (pts : List Pt) : List.Pairwise lexLt (sortedPts pts) := by
  have hs : List.Pairwise lexLe (sortedPts pts) := List.sorted_insertionSort lexLe pts.dedup
  have hnd : List.Pairwise (fun a b : Pt => a ≠ b) (sortedPts pts) :=
    ((List.perm_insertionSort lexLe pts.dedup).nodup_iff).mpr (List.nodup_dedup pts)
  exact (hs.and hnd).imp fun h => lexLt_of_lexLe_ne h.1 h.2

theorem mem_sortedPts (pts : List Pt) (a : Pt) : a ∈ sortedPts pts ↔ a ∈ pts := by
  rw [sortedPts, (List.perm_insertionSort lexLe pts.dedup).mem_iff, List.mem_dedup]

/-- The hull ring of a nonempty, strictly sorted point list is closed, uses
only input vertices, and keeps every input point on the left of every
directed edge. -/
theorem hullRing_spec (s : List Pt) (hne : s ≠ []) (hsort : List.Pairwise lexLt s) :
    (hullRing s).head? = (hullRing s).getLast?
    ∧ (∀ v ∈ hullRing s, v ∈ s)
    ∧ ∀ q ∈ s, ∀ e ∈ (hullRing s).zip (hullRing s).tail, 0 ≤ cross e.1 e.2 q := by
  have hinvL : Inv s (lowerChain s) := lowerChain_inv s hne hsort
  have hrne : s.reverse ≠ [] := by simpa using hne
  have hmne : (s.reverse.map negPt) ≠ [] := by
    simp only [ne_eq, List.map_eq_nil_iff]
    exact hrne
  have hmsort : List.Pairwise lexLt (s.reverse.map negPt) := by
    rw [List.pairwise_map, List.pairwise_reverse]
    exact hsort.imp fun h => (lexLt_negPt _ _).mpr h
  have hinvM : Inv (s.reverse.map negPt) (lowerChain (s.reverse.map negPt)) :=
    lowerChain_inv _ hmne hmsort
  have hup : lowerChain s.reverse = (lowerChain (s.reverse.map negPt)).map negPt := by
    have h1 : lowerChain (s.reverse.map negPt) = (lowerChain s.reverse).map negPt :=
      lowerChain_negPt s.reverse
    rw [h1, List.map_map]
    have h2 : negPt ∘ negPt = id := funext negPt_negPt
    rw [h2, List.map_id]
  have hlowhead : (lowerChain s).head? = s.getLast? := lowerChain_head s hne
  have hlowlast : (lowerChain s).getLast? = s.head? := lowerChain_last s hne
  have huphead : (lowerChain s.reverse).head? = s.head? := by
    rw [lowerChain_head s.reverse hrne, List.getLast?_reverse]
  have huplast : (lowerChain s.reverse).getLast? = s.getLast? := by
    rw [lowerChain_last s.reverse hrne, List.head?_reverse]
  have hlne : lowerChain s ≠ [] := hinvL.ne
  have hune : lowerChain s.reverse ≠ [] := by
    rw [hup]
    simp only [ne_eq, List.map_eq_nil_iff]
    exact hinvM.ne
  have hupsub : ∀ v ∈ lowerChain s.reverse, v ∈ s := by
    intro v hv
    rw [hup] at hv
    obtain ⟨w, hw, rfl⟩ := List.mem_map.mp hv
    have hwm := hinvM.sub w hw
    obtain ⟨u, hu, rfl⟩ := List.mem_map.mp hwm
    rw [negPt_negPt]
    exact List.mem_reverse.mp hu
  have hupedges : ∀ q ∈ s, ∀ e ∈ (lowerChain s.reverse).tail.zip (lowerChain s.reverse),
      0 ≤ cross e.1 e.2 q := by
    intro q hq e he
    rw [hup] at he
    have hE : ((lowerChain (s.reverse.map negPt)).map negPt).tail.zip
          ((lowerChain (s.reverse.map negPt)).map negPt)
        = ((lowerChain (s.reverse.map negPt)).tail.zip
            (lowerChain (s.reverse.map negPt))).map (Prod.map negPt negPt) := by
      rw [← List.map_tail, List.zip_map]
    rw [hE] at he
    obtain ⟨⟨u, v⟩, huv, rfl⟩ := List.mem_map.mp he
    have hq' : negPt q ∈ s.reverse.map negPt :=
      List.mem_map.mpr ⟨q, List.mem_reverse.mpr hq, rfl⟩
    have hleft := hinvM.edgesLeft (negPt q) hq' (u, v) huv
    have h3 : cross (negPt u) (negPt v) q = cross u v (negPt q) := by
      have h4 := cross_negPt u v (negPt q)
      rw [negPt_negPt] at h4
      exact h4
    show 0 ≤ cross (negPt u) (negPt v) q
    rw [h3]
    exact hleft
  have hrdef : hullRing s = (lowerChain s).reverse ++ ((lowerChain s.reverse).reverse).tail :=
    rfl
  have hhead : (hullRing s).head? = s.head? := by
    have h1 : (hullRing s).head? = (lowerChain s).reverse.head? := by
      rw [hrdef]
      cases hlr : (lowerChain s).reverse with
      | nil => exact absurd (List.reverse_eq_nil_iff.mp hlr) hlne
      | cons a t => rfl
    rw [h1, List.head?_reverse, hlowlast]
  refine ⟨?_, ?_, ?_⟩
  · by_cases hT : ((lowerChain s.reverse).reverse).tail = []
    · have hsing : ∃ z, s = [z] := by
        cases hs0 : s with
        | nil => exact absurd hs0 hne
        | cons a t =>
          cases ht0 : t with
          | nil => exact ⟨a, rfl⟩
          | cons b t' =>
            exfalso
            have h2r : 2 ≤ s.reverse.length := by
              rw [List.length_reverse, hs0, ht0]
              simp only [List.length_cons]
              omega
            obtain ⟨x, l', hsr⟩ : ∃ x l', s.reverse = x :: l' := by
              cases hsr : s.reverse with
              | nil => rw [hsr] at h2r; simp at h2r
              | cons x l' => exact ⟨x, l', rfl⟩
            have hl'ne : l' ≠ [] := by
              intro hl'
              rw [hsr, hl'] at h2r
              simp at h2r
            have hlen2 : 2 ≤ (lowerChain s.reverse).length := by
              rw [show lowerChain s.reverse = l'.foldl lowerStep [x] from by rw [hsr]; rfl]
              exact foldl_lowerStep_length l' [x] (by simp) hl'ne
            have hlen3 : (lowerChain s.reverse).reverse.length ≤ 1 := by
              cases hur : (lowerChain s.reverse).reverse with
              | nil => simp
              | cons a' t'' =>
                have : t'' = [] := by
                  rw [hur] at hT
                  exact hT
                rw [this]
                simp
            rw [List.length_reverse] at hlen3
            omega
      obtain ⟨z, hz⟩ := hsing
      have h2 : (hullRing s).getLast? = (lowerChain s).reverse.getLast? := by
        rw [hrdef, hT, List.append_nil]
      rw [hhead, h2, List.getLast?_reverse, hlowhead, hz]
      simp
    · have h2 : (hullRing s).getLast? = ((lowerChain s.reverse).reverse).tail.getLast? := by
        rw [hrdef]
        exact List.getLast?_append_of_ne_nil _ hT
      have h3 : ((lowerChain s.reverse).reverse).tail.getLast?
          = (lowerChain s.reverse).reverse.getLast? := by
        cases hur : (lowerChain s.reverse).reverse with
        | nil => rw [hur] at hT; exact absurd rfl hT
        | cons a t =>
          cases t with
          | nil => rw [hur] at hT; exact absurd rfl hT
          | cons b t' =>
            show (b :: t').getLast? = (a :: b :: t').getLast?
            rw [List.getLast?_cons_cons]
      rw [hhead, h2, h3, List.getLast?_reverse, huphead]
  · intro v hv
    rw [hrdef] at hv
    rcases List.mem_append.mp hv with hv | hv
    · exact hinvL.sub v (List.mem_reverse.mp hv)
    · exact hupsub v (List.mem_reverse.mp (List.tail_subset _ hv))
  · intro q hq e he
    obtain ⟨x, y⟩ := e
    rw [hrdef] at he
    rcases (mem_consec_append_iff (lowerChain s).reverse ((lowerChain s.reverse).reverse).tail
        x y).mp he with h | h | ⟨h1, h2⟩
    · have h' : (y, x) ∈ (lowerChain s).zip (lowerChain s).tail :=
        (mem_consec_reverse (lowerChain s) x y).mp h
      have h'' : (x, y) ∈ (lowerChain s).tail.zip (lowerChain s) :=
        (mem_zip_swap (lowerChain s) (lowerChain s).tail y x).mp h'
      exact hinvL.edgesLeft q hq (x, y) h''
    · have h0 : (x, y) ∈ (lowerChain s.reverse).reverse.zip
          ((lowerChain s.reverse).reverse).tail :=
        mem_consec_tail (lowerChain s.reverse).reverse x y h
      have h' : (y, x) ∈ (lowerChain s.reverse).zip (lowerChain s.reverse).tail :=
        (mem_consec_reverse (lowerChain s.reverse) x y).mp h0
      have h'' : (x, y) ∈ (lowerChain s.reverse).tail.zip (lowerChain s.reverse) :=
        (mem_zip_swap (lowerChain s.reverse) (lowerChain s.reverse).tail y x).mp h'
      exact hupedges q hq (x, y) h''
    · have hx : (lowerChain s.reverse).reverse.head? = some x := by
        rw [List.head?_reverse, huplast]
        rw [List.getLast?_reverse] at h1
        rw [← hlowhead]
        exact h1
      obtain ⟨t', ht'⟩ : ∃ t', ((lowerChain s.reverse).reverse).tail = y :: t' := by
        cases hut : ((lowerChain s.reverse).reverse).tail with
        | nil => rw [hut] at h2; simp at h2
        | cons c t' =>
          have : c = y := by rw [hut] at h2; simpa using h2
          subst this
          exact ⟨t', rfl⟩
      have h0 : (x, y) ∈ (lowerChain s.reverse).reverse.zip
          ((lowerChain s.reverse).reverse).tail := by
        cases hur : (lowerChain s.reverse).reverse with
        | nil =>
          rw [hur] at ht'
          simp at ht'
        | cons a t =>
          have hax : a = x := by rw [hur] at hx; simpa using hx
          subst hax
          rw [hur] at ht'
          have ht2 : t = y :: t' := ht'
          subst ht2
          exact List.mem_cons_self _ _
      have h' : (y, x) ∈ (lowerChain s.reverse).zip (lowerChain s.reverse).tail :=
        (mem_consec_reverse (lowerChain s.reverse) x y).mp h0
      have h'' : (x, y) ∈ (lowerChain s.reverse).tail.zip (lowerChain s.reverse) :=
        (mem_zip_swap (lowerChain s.reverse) (lowerChain s.reverse).tail y x).mp h'
      exact hupedges q hq (x, y) h''

/-- C2: `computeBoundary` returns null exactly when the point set contains
fewer than 3 non-collinear points; otherwise it returns the convex hull of
the point set as a closed ring (first vertex repeated at the end) whose
vertices are input points, and every input point lies inside or on the
returned polygon: it is on the left of, or on, every directed boundary
edge. -/
theorem computeBoundary_hull (pts : List Pt) :
    (computeBoundary pts = none ↔ hasThreeNonCollinear pts = false)
    ∧ ∀ r, computeBoundary pts = some r →
        r.head? = r.getLast?
        ∧ (∀ v ∈ r, v ∈ pts)
        ∧ ∀ q ∈ pts, ∀ e ∈ r.zip r.tail, 0 ≤ cross e.1 e.2 q := by
  constructor
  · rw [computeBoundary]
    cases h : hasThreeNonCollinear pts
    · simp
    · simp
  · intro r hr
    rw [computeBoundary] at hr
    by_cases h : hasThreeNonCollinear pts = true
    · rw [if_pos h] at hr
      injection hr with hr'
      have hmem : ∃ a ∈ pts, True := by
        rw [hasThreeNonCollinear] at h
        obtain ⟨a, ha, _⟩ := List.any_eq_true.mp h
        exact ⟨a, ha, trivial⟩
      obtain ⟨a, ha, _⟩ := hmem
      have hsne : sortedPts pts ≠ [] :=
        List.ne_nil_of_mem ((mem_sortedPts pts a).mpr ha)
      obtain ⟨hclosed, hvert, hcont⟩ :=
        hullRing_spec (sortedPts pts) hsne (sortedPts_pairwise pts)
      subst hr'
      exact ⟨hclosed, fun v hv => (mem_sortedPts pts v).mp (hvert v hv),
        fun q hq e he => hcont q ((mem_sortedPts pts q).mpr hq) e he⟩
    · rw [if_neg h] at hr
      exact absurd hr (by simp)

/-- A sample triangle for the hull: three non-collinear points. -/
def pA : Pt := ⟨0, 0⟩

/-- Second sample vertex. -/
def pB : Pt := ⟨0, 2⟩

/-- Third sample vertex. -/
def pC : Pt := ⟨2, 1⟩

/-- The sample point set. -/
def demoTri : List Pt := [pA, pB, pC]

/-- The expected closed hull ring of the sample point set. -/
def demoRing : List Pt := [pA, pB, pC, pA]

theorem demo_lower : lowerChain [pA, pC, pB] = [pB, pA] := by
  show lowerStep (lowerStep (lowerStep [] pA) pC) pB = [pB, pA]
  rw [show lowerStep (lowerStep [] pA) pC = [pC, pA] from rfl]
  rw [lowerStep]
  have hc : cross pA pC pB ≤ 0 := by norm_num [cross, pA, pB, pC]
  rw [show popChain pB [pC, pA] = popChain pB [pA] from by
    show (if cross pA pC pB ≤ 0 then popChain pB [pA] else [pC, pA]) = _
    rw [if_pos hc]]
  rfl

theorem demo_upper : lowerChain [pB, pC, pA] = [pA, pC, pB] := by
  show lowerStep (lowerStep (lowerStep [] pB) pC) pA = [pA, pC, pB]
  rw [show lowerStep (lowerStep [] pB) pC = [pC, pB] from rfl]
  rw [lowerStep]
  have hc : ¬ cross pB pC pA ≤ 0 := by norm_num [cross, pA, pB, pC]
  rw [show popChain pA [pC, pB] = [pC, pB] from by
    show (if cross pB pC pA ≤ 0 then popChain pA [pB] else [pC, pB]) = _
    rw [if_neg hc]]

theorem demo_computeBoundary : computeBoundary demoTri = some demoRing := by
  have h2 : hasThreeNonCollinear demoTri = true := by
    rw [hasThreeNonCollinear, List.any_eq_true]
    refine ⟨pA, by simp [demoTri], ?_⟩
    rw [List.any_eq_true]
    refine ⟨pB, by simp [demoTri], ?_⟩
    rw [List.any_eq_true]
    refine ⟨pC, by simp [demoTri], ?_⟩
    rw [decide_eq_true_eq]
    norm_num [cross, pA, pB, pC]
  rw [computeBoundary, if_pos h2]
  rw [show sortedPts demoTri = [pA, pC, pB] from by decide]
  rw [hullRing]
  rw [show ([pA, pC, pB] : List Pt).reverse = [pB, pC, pA] from rfl]
  rw [demo_lower, demo_upper]
  rfl

/-- Witness for C2: on a concrete triangle the boundary is the closed hull
ring, its vertices are input points, and all three inputs lie on or left of
every edge. -/
theorem computeBoundary_hull_witness :
    computeBoundary demoTri = some demoRing
    ∧ (demoRing.head? = demoRing.getLast?
      ∧ (∀ v ∈ demoRing, v ∈ demoTri)
      ∧ ∀ q ∈ demoTri, ∀ e ∈ demoRing.zip demoRing.tail, 0 ≤ cross e.1 e.2 q) :=
  ⟨demo_computeBoundary,
    (computeBoundary_hull demoTri).2 demoRing demo_computeBoundary⟩

end GeoAPI
